import Mathlib

/-!
Shallow embedding of the nginx pool allocator (`src/core/ngx_palloc.c`).

Addresses and sizes are natural numbers; a C `NULL` pointer is the address `0`.
Pointer subtraction cast to `size_t` is modelled exactly, with wraparound at
`2 ^ 64` (`usub`), because the code's space check
`(size_t) (p->d.end - m) >= size` relies on it.  Linked chains (`d.next`,
`large->next`, `cleanup->next`) are modelled as Lean lists in chain order,
head first; the `next` pointer of the last node being `NULL` corresponds to
the end of the list.  Calls into the underlying allocator
(`ngx_memalign` / `ngx_alloc`) are modelled by explicit `Option Nat`
parameters: `some a` means the underlying allocator returned the address `a`,
`none` means it failed.  Calls to `ngx_free` are recorded in a `freed` output
list, in call order.  Struct sizes are those of a typical LP64 platform.
-/

/-- Constant `NGX_POOL_ALIGNMENT` from ngx_core.h. -/
def NGX_POOL_ALIGNMENT : Nat := 16

/-- Constant `NGX_ALIGNMENT`: platform pointer alignment, `sizeof(unsigned long)` on LP64. -/
def NGX_ALIGNMENT : Nat := 8

/-- Constant `NGX_MAX_ALLOC_FROM_POOL` (`ngx_pagesize - 1`) with the usual 4096-byte page. -/
def NGX_MAX_ALLOC_FROM_POOL : Nat := 4095

/-- Size `sizeof(ngx_pool_t)` on LP64: the `ngx_pool_data_t` header (32 bytes) plus
`max`, `current`, `chain`, `large`, `cleanup`, `log` (6 * 8 bytes). -/
def sizeof_ngx_pool_t : Nat := 80

/-- Size `sizeof(ngx_pool_data_t)` on LP64: `last`, `end`, `next`, `failed`. -/
def sizeof_ngx_pool_data_t : Nat := 32

/-- Size `sizeof(ngx_pool_large_t)` on LP64: `next`, `alloc`. -/
def sizeof_ngx_pool_large_t : Nat := 16

/-- Size `sizeof(ngx_pool_cleanup_t)` on LP64: `handler`, `data`, `next`. -/
def sizeof_ngx_pool_cleanup_t : Nat := 24

/-- Status code `NGX_OK`. -/
def NGX_OK : Int := 0

/-- Status code `NGX_DECLINED`. -/
def NGX_DECLINED : Int := -5

/-- Modulus of 64-bit machine arithmetic. -/
def U64 : Nat := 2 ^ 64

/-- Pointer difference `a - b` computed in `size_t` (64-bit) arithmetic,
wrapping around when `b > a`, as in `(size_t) (p->d.end - m)`. -/
def usub (a b : Nat) : Nat := (U64 + a - b) % U64

/-- Model of `ngx_align_ptr(p, a)`: round the address `m` up to a multiple of `a` (for a power of two `a` this agrees with the bit-mask form of the source macro as long as `m + a` does not overflow 64 bits; all theorems below keep addresses far below that). -/
def ngx_align_ptr (m a : Nat) : Nat := (m + a - 1) / a * a

/-- One block of the pool chain: the fields of `ngx_pool_data_t` plus the
block's own address `start` (the value of the `ngx_pool_t *` pointer).
`next` is implicit in the chain list order.  `hdr` is a ghost field recording
the size of the header region of this block (`sizeof(ngx_pool_t)` for the
block made by `ngx_create_pool`, `sizeof(ngx_pool_data_t)` for blocks made by
`ngx_palloc_block`); it is written by the two constructors, never read by any
operation, and is used only to state where the block's data region begins. -/
structure Block where
  start : Nat
  last : Nat
  end_ : Nat
  failed : Nat
  hdr : Nat
  deriving Repr, DecidableEq, Inhabited

/-- Node type `ngx_pool_large_t` without its `next` link: the `alloc` payload pointer
(`0` = `NULL`, the vacated-slot marker). -/
structure LargeNode where
  alloc : Nat
  deriving Repr, DecidableEq, Inhabited

/-- Record `ngx_pool_cleanup_file_t`: file descriptor, file name pointer, log. -/
structure CleanupFileData where
  fd : Nat
  name : Nat
  log : Nat
  deriving Repr, DecidableEq, Inhabited

/-- The value behind a cleanup node's `data` pointer: either a
`ngx_pool_cleanup_file_t` record (as used by the two file handlers) or an
uninterpreted raw pointer for user-defined handlers. -/
inductive CleanupData where
  | file (f : CleanupFileData)
  | raw (addr : Nat)
  deriving Repr, DecidableEq, Inhabited

/-- The `fd` field read through `cf = c->data; cf->fd`, defined when the data
actually is a `ngx_pool_cleanup_file_t`. -/
def CleanupData.fdOf : CleanupData → Option Nat
  | .file f => some f.fd
  | .raw _ => none

/-- Cleanup handler function pointers.  `ngx_pool_cleanup_file` and
`ngx_pool_delete_file` are the two canonical handlers defined in this file;
`user n` stands for any other handler function. -/
inductive CleanupHandler where
  | ngx_pool_cleanup_file
  | ngx_pool_delete_file
  | user (n : Nat)
  deriving Repr, DecidableEq, Inhabited

/-- Node type `ngx_pool_cleanup_t` without its `next` link: `handler` (`none` = `NULL`,
meaning empty / already run) and `data`. -/
structure CleanupNode where
  handler : Option CleanupHandler
  data : CleanupData
  deriving Repr, DecidableEq, Inhabited

/-- The pool: root-block bookkeeping (`max`, `current` as an index into
`blocks`, `large`, `cleanup`) together with the block chain itself.
`blocks` is the chain in `d.next` order, the root block first.  The `log`
and `chain` fields are diagnostic / unrelated state and are not modelled. -/
structure Pool where
  blocks : List Block
  current : Nat
  max : Nat
  large : List LargeNode
  cleanup : List CleanupNode
  deriving Repr, DecidableEq, Inhabited

/-- Result of an allocating operation: the pool after the call, the returned
pointer (`none` = `NULL`), and the addresses passed to `ngx_free` during the
call, in call order. -/
structure ARes where
  pool : Pool
  res : Option Nat
  freed : List Nat
  deriving Repr, DecidableEq, Inhabited

/-- Model of `ngx_create_pool(size, log)`.  `mem` is the result of the underlying
`ngx_memalign(NGX_POOL_ALIGNMENT, size, log)` call. -/
def ngx_create_pool (size : Nat) (mem : Option Nat) : Option Pool :=
  match mem with
  | none => none
  | some p =>
    let dsize := usub size sizeof_ngx_pool_t
    some
      { blocks := [{ start := p, last := p + sizeof_ngx_pool_t, end_ := p + size,
                     failed := 0, hdr := sizeof_ngx_pool_t }]
        current := 0
        max := if dsize < NGX_MAX_ALLOC_FROM_POOL then dsize else NGX_MAX_ALLOC_FROM_POOL
        large := []
        cleanup := [] }

/-- The `do { ... } while (p)` scan of `ngx_palloc_small`, over the chain
starting at `pool->current`.  Returns the updated sublist and the committed
address `m` on success. -/
def smallLoop (size : Nat) (align : Bool) : List Block → Option (List Block × Nat)
  | [] => none
  | b :: rest =>
    let m := if align then ngx_align_ptr b.last NGX_ALIGNMENT else b.last
    if size ≤ usub b.end_ m then
      some ({ b with last := m + size } :: rest, m)
    else
      (smallLoop size align rest).map (fun r => (b :: r.1, r.2))

/-- The `for (p = pool->current; p->d.next; p = p->d.next)` walk of
`ngx_palloc_block`: `i` is the absolute chain index of the head of `bs`,
`cur` accumulates `pool->current` (as an index).  Every block that still has
a successor gets `failed` incremented; when the value of the post-increment
expression `p->d.failed++` exceeds 4 (that is, the value before the
increment exceeds 4), `pool->current` is advanced to that block's successor.
The last block of the chain is not part of the loop body. -/
def growLoop (i : Nat) (bs : List Block) (cur : Nat) : List Block × Nat :=
  match bs with
  | [] => ([], cur)
  | [b] => ([b], cur)
  | b :: b2 :: rest =>
    let cur1 := if 4 < b.failed then i + 1 else cur
    let r := growLoop (i + 1) (b2 :: rest) cur1
    ({ b with failed := b.failed + 1 } :: r.1, r.2)

/-- Model of `ngx_palloc_block(pool, size)`.  `mem` is the result of the underlying
`ngx_memalign(NGX_POOL_ALIGNMENT, psize, pool->log)` call. -/
def ngx_palloc_block (pool : Pool) (size : Nat) (mem : Option Nat) : ARes :=
  let root := pool.blocks.headD default
  let psize := usub root.end_ root.start
  match mem with
  | none => { pool := pool, res := none, freed := [] }
  | some mb =>
    let m := ngx_align_ptr (mb + sizeof_ngx_pool_data_t) NGX_ALIGNMENT
    let newb : Block :=
      { start := mb, last := m + size, end_ := mb + psize, failed := 0,
        hdr := sizeof_ngx_pool_data_t }
    let walked := growLoop pool.current (pool.blocks.drop pool.current) pool.current
    { pool := { pool with
                  blocks := pool.blocks.take pool.current ++ walked.1 ++ [newb]
                  current := walked.2 }
      res := some m
      freed := [] }

/-- Model of `ngx_palloc_small(pool, size, align)`.  `mem` is the underlying
`ngx_memalign` result consumed by `ngx_palloc_block` if growth is needed. -/
def ngx_palloc_small (pool : Pool) (size : Nat) (align : Bool) (mem : Option Nat) : ARes :=
  match smallLoop size align (pool.blocks.drop pool.current) with
  | some r =>
    { pool := { pool with blocks := pool.blocks.take pool.current ++ r.1 }
      res := some r.2
      freed := [] }
  | none => ngx_palloc_block pool size mem

/-- The slot-reuse scan of `ngx_palloc_large`: attach payload `p` to the
first node whose `alloc` is `NULL`; `if (n++ > 3) break` stops the scan after
the node reached with `n = 4`, so the first five nodes are inspected. -/
def largeLoop (p : Nat) (n : Nat) : List LargeNode → Option (List LargeNode)
  | [] => none
  | l :: rest =>
    if l.alloc = 0 then some ({ alloc := p } :: rest)
    else if 3 < n then none
    else (largeLoop p (n + 1) rest).map (fun r => l :: r)

/-- Model of `ngx_palloc_large(pool, size)`.  `pm` is the result of the underlying
`ngx_alloc(size, pool->log)` call for the payload, `bm` the `ngx_memalign`
result consumed if allocating the list node needs a new block. -/
def ngx_palloc_large (pool : Pool) (size : Nat) (pm : Option Nat) (bm : Option Nat) : ARes :=
  match pm with
  | none => { pool := pool, res := none, freed := [] }
  | some p =>
    match largeLoop p 0 pool.large with
    | some ls => { pool := { pool with large := ls }, res := some p, freed := [] }
    | none =>
      let r := ngx_palloc_small pool sizeof_ngx_pool_large_t true bm
      match r.res with
      | none => { pool := r.pool, res := none, freed := r.freed ++ [p] }
      | some _ =>
        { pool := { r.pool with large := { alloc := p } :: r.pool.large }
          res := some p
          freed := r.freed }

/-- Model of `ngx_palloc(pool, size)` (aligned).  `pm` / `bm` are the underlying
allocator results consumed on the large respectively block-growth path. -/
def ngx_palloc (pool : Pool) (size : Nat) (pm : Option Nat) (bm : Option Nat) : ARes :=
  if size ≤ pool.max then ngx_palloc_small pool size true bm
  else ngx_palloc_large pool size pm bm

/-- Model of `ngx_pnalloc(pool, size)` (unaligned). -/
def ngx_pnalloc (pool : Pool) (size : Nat) (pm : Option Nat) (bm : Option Nat) : ARes :=
  if size ≤ pool.max then ngx_palloc_small pool size false bm
  else ngx_palloc_large pool size pm bm

/-- The scan of `ngx_pfree`: find the first node with `p == l->alloc`, free
its payload and set `alloc = NULL`, leaving the node in place. -/
def pfreeLoop (p : Nat) : List LargeNode → Option (List LargeNode)
  | [] => none
  | l :: rest =>
    if p = l.alloc then some ({ alloc := 0 } :: rest)
    else (pfreeLoop p rest).map (fun r => l :: r)

/-- Model of `ngx_pfree(pool, p)`: returns the pool, the status (`NGX_OK` or
`NGX_DECLINED`), and the addresses passed to `ngx_free`. -/
def ngx_pfree (pool : Pool) (p : Nat) : Pool × Int × List Nat :=
  match pfreeLoop p pool.large with
  | some ls => ({ pool with large := ls }, NGX_OK, [p])
  | none => (pool, NGX_DECLINED, [])

/-- Model of `ngx_reset_pool(pool)`: free the large payloads, rewind every block's
`last` to `sizeof(ngx_pool_t)` past the block start and clear `failed`,
reset `current` to the root, clear `large`.  The `cleanup` field is not
touched by the source.  Returns the pool and the addresses freed. -/
def ngx_reset_pool (pool : Pool) : Pool × List Nat :=
  ({ pool with
       blocks := pool.blocks.map
         (fun b => { b with last := b.start + sizeof_ngx_pool_t, failed := 0 })
       current := 0
       large := [] },
   pool.large.filterMap (fun l => if l.alloc ≠ 0 then some l.alloc else none))

/-- Observable events of `ngx_destroy_pool`, in chronological order:
running a cleanup handler, freeing a large payload, freeing a chain block. -/
inductive Ev where
  | cleanup (h : CleanupHandler) (d : CleanupData)
  | freeLarge (a : Nat)
  | freeBlock (a : Nat)
  deriving Repr, DecidableEq

/-- The first loop of `ngx_destroy_pool`: run every non-`NULL` handler, in
list (head-to-tail) order. -/
def cleanupEvs : List CleanupNode → List Ev
  | [] => []
  | c :: rest =>
    match c.handler with
    | some h => .cleanup h c.data :: cleanupEvs rest
    | none => cleanupEvs rest

/-- The large-payload loop of `ngx_destroy_pool`: `if (l->alloc) ngx_free(l->alloc)`. -/
def largeEvs : List LargeNode → List Ev
  | [] => []
  | l :: rest =>
    if l.alloc ≠ 0 then .freeLarge l.alloc :: largeEvs rest
    else largeEvs rest

/-- The block-freeing loop of `ngx_destroy_pool`: each block's successor is
saved in `n` before `ngx_free(p)`, so the chain is freed in chain order,
root block first. -/
def blockEvs : List Block → List Ev
  | [] => []
  | b :: rest => .freeBlock b.start :: blockEvs rest

/-- Model of `ngx_destroy_pool(pool)` as its chronological event trace. -/
def ngx_destroy_pool (pool : Pool) : List Ev :=
  cleanupEvs pool.cleanup ++ largeEvs pool.large ++ blockEvs pool.blocks

/-- Model of `ngx_pool_cleanup_add(p, size)`.  `ni` are the underlying allocator
results for the `ngx_palloc` of the node, `di` those for the `ngx_palloc`
of the `size`-byte data block (each a pair: large-path payload result,
block-growth result). -/
def ngx_pool_cleanup_add (pool : Pool) (size : Nat)
    (ni di : Option Nat × Option Nat) : ARes :=
  let r := ngx_palloc pool sizeof_ngx_pool_cleanup_t ni.1 ni.2
  match r.res with
  | none => { pool := r.pool, res := none, freed := r.freed }
  | some caddr =>
    if size ≠ 0 then
      let r2 := ngx_palloc r.pool size di.1 di.2
      match r2.res with
      | none => { pool := r2.pool, res := none, freed := r.freed ++ r2.freed }
      | some daddr =>
        { pool := { r2.pool with
                      cleanup := { handler := none, data := .raw daddr } :: r2.pool.cleanup }
          res := some caddr
          freed := r.freed ++ r2.freed }
    else
      { pool := { r.pool with
                    cleanup := { handler := none, data := .raw 0 } :: r.pool.cleanup }
        res := some caddr
        freed := r.freed }

/-- The caller-side writes `c->handler = h; c->data = d` on the node just
returned by `ngx_pool_cleanup_add` (the head of `pool->cleanup`). -/
def setCleanupHead (pool : Pool) (h : Option CleanupHandler) (d : CleanupData) : Pool :=
  match pool.cleanup with
  | [] => pool
  | _ :: rest => { pool with cleanup := { handler := h, data := d } :: rest }

/-- The scan of `ngx_pool_run_cleanup_file`: the first node whose handler is
`ngx_pool_cleanup_file` and whose data's `fd` equals the argument has its
handler invoked and then set to `NULL`; the scan stops there. -/
def rcfLoop (fd : Nat) : List CleanupNode → List CleanupNode × List (CleanupHandler × CleanupData)
  | [] => ([], [])
  | c :: rest =>
    if c.handler = some .ngx_pool_cleanup_file ∧ c.data.fdOf = some fd then
      ({ c with handler := none } :: rest, [(.ngx_pool_cleanup_file, c.data)])
    else
      let r := rcfLoop fd rest
      (c :: r.1, r.2)

/-- Model of `ngx_pool_run_cleanup_file(p, fd)`: returns the pool and the list of
handler invocations it performed (at most one). -/
def ngx_pool_run_cleanup_file (pool : Pool) (fd : Nat) :
    Pool × List (CleanupHandler × CleanupData) :=
  let r := rcfLoop fd pool.cleanup
  ({ pool with cleanup := r.1 }, r.2)

/-- One small-allocation request of the C1 scenario: the `align` flag
distinguishes `ngx_palloc` from `ngx_pnalloc`, `size` is the requested size,
`mem` the underlying `ngx_memalign` result consumed if the request grows the
chain. -/
structure SmallOp where
  align : Bool
  size : Nat
  mem : Option Nat
  deriving Repr, DecidableEq

/-- Run a sequence of `ngx_palloc` / `ngx_pnalloc` calls, collecting for each
call the returned range (address, requested size), `none` for a failed call. -/
def runSmall : Pool → List SmallOp → Pool × List (SmallOp × Option (Nat × Nat))
  | pool, [] => (pool, [])
  | pool, op :: ops =>
    let r := if op.align then ngx_palloc pool op.size none op.mem
             else ngx_pnalloc pool op.size none op.mem
    let rest := runSmall r.pool ops
    (rest.1, (op, r.res.map (fun a => (a, op.size))) :: rest.2)

/-- Two half-open ranges (address, size) do not overlap. -/
def rangesDisjoint (r1 r2 : Nat × Nat) : Prop :=
  r1.1 + r1.2 ≤ r2.1 ∨ r2.1 + r2.2 ≤ r1.1

instance : DecidablePred (fun r : (Nat × Nat) × (Nat × Nat) => rangesDisjoint r.1 r.2) :=
  fun _ => by unfold rangesDisjoint; infer_instance

instance (r1 r2 : Nat × Nat) : Decidable (rangesDisjoint r1 r2) := by
  unfold rangesDisjoint; infer_instance

/-- Boolean pairwise check. -/
def pairwiseB (R : α → α → Bool) : List α → Bool
  | [] => true
  | x :: xs => xs.all (R x) && pairwiseB R xs

/-- Boolean disjointness of two optional ranges (a failed allocation imposes
no constraint). -/
def optDisjointB : Option (Nat × Nat) → Option (Nat × Nat) → Bool
  | some r1, some r2 => decide (rangesDisjoint r1 r2)
  | _, _ => true

/-- Boolean check that the range lies inside the data region of some block of
the chain. -/
def withinDataB (bs : List Block) (r : Nat × Nat) : Bool :=
  bs.any (fun b => decide (b.start + b.hdr ≤ r.1 ∧ r.1 + r.2 ≤ b.end_))

/-- Boolean statement of the C1 conclusion over the collected results:
pairwise disjointness, membership in some block's data region, and 8-byte
alignment of every address returned by the aligned variant. -/
def resultsOk (bs : List Block) (out : List (SmallOp × Option (Nat × Nat))) : Bool :=
  pairwiseB optDisjointB (out.map (fun x => x.2)) &&
  out.all (fun x =>
    match x.2 with
    | none => true
    | some r => withinDataB bs r && (!x.1.align || decide (r.1 % NGX_ALIGNMENT = 0)))

/-- Freshness of a block-memory schedule for a pool whose blocks all have
size `sz` and whose root block sits at `a`: every candidate address is
nonzero, aligned, bounded, and the candidate regions together with the root
region are pairwise disjoint. -/
def freshSchedule (a sz : Nat) (ms : List Nat) : Prop :=
  (∀ m ∈ ms, NGX_ALIGNMENT ∣ m ∧ 0 < m ∧ m + sz ≤ 2 ^ 62) ∧
  List.Pairwise (fun r1 r2 => rangesDisjoint r1 r2) ((a, sz) :: ms.map (fun m => (m, sz)))

instance (a sz : Nat) (ms : List Nat) : Decidable (freshSchedule a sz ms) := by
  unfold freshSchedule; infer_instance

/-- Index of the first large node whose `alloc` is `NULL` (a vacated slot). -/
def firstNullIdx : List LargeNode → Option Nat
  | [] => none
  | l :: rest => if l.alloc = 0 then some 0 else (firstNullIdx rest).map (fun i => i + 1)

/-- Specification-side description of the slot-reuse scan of
`ngx_palloc_large` starting at counter `n`: reuse the first vacated node
if its index `i` satisfies `n + i ≤ 4`, otherwise report no reusable slot. -/
def largeLoopSpec (p n : Nat) (ls : List LargeNode) : Option (List LargeNode) :=
  match firstNullIdx ls with
  | some i => if n + i ≤ 4 then some (ls.set i { alloc := p }) else none
  | none => none

/-- One cleanup registration as performed by a caller: `ngx_pool_cleanup_add`
followed by the caller's writes of the handler and of the data contents.
`mem` is the underlying allocator result consumed if the node allocation has
to grow the chain. -/
structure Reg where
  h : Option CleanupHandler
  d : CleanupData
  mem : Option Nat
  deriving Repr, DecidableEq

/-- The cleanup node a registration ends up as. -/
def regNode (r : Reg) : CleanupNode := { handler := r.h, data := r.d }

/-- Perform one registration: `ngx_pool_cleanup_add(pool, 0)` (the data
contents are modelled by value, so the data-block allocation size is
irrelevant to the chain structure), then the caller's field writes on the
returned node.  Fails if the node allocation fails. -/
def addReg (pool : Pool) (r : Reg) : Option Pool :=
  let res := ngx_pool_cleanup_add pool 0 (none, r.mem) (none, none)
  match res.res with
  | none => none
  | some _ => some (setCleanupHead res.pool r.h r.d)

/-- Perform a sequence of registrations, oldest first. -/
def buildRegs : Pool → List Reg → Option Pool
  | pool, [] => some pool
  | pool, r :: rs =>
    match addReg pool r with
    | none => none
    | some p => buildRegs p rs

/-- Specification-side description of what `ngx_pool_run_cleanup_file` does
to the chain: clear the handler of the first node whose handler is
`ngx_pool_cleanup_file` and whose data carries the given `fd`. -/
def clearFirstFile (fd : Nat) : List CleanupNode → List CleanupNode
  | [] => []
  | c :: rest =>
    if c.handler = some .ngx_pool_cleanup_file ∧ c.data.fdOf = some fd then
      { c with handler := none } :: rest
    else c :: clearFirstFile fd rest

/-- Specification-side description of the invocation performed by
`ngx_pool_run_cleanup_file`: the first matching node's handler, or nothing. -/
def firstFileMatch (fd : Nat) : List CleanupNode → List (CleanupHandler × CleanupData)
  | [] => []
  | c :: rest =>
    if c.handler = some .ngx_pool_cleanup_file ∧ c.data.fdOf = some fd then
      [(.ngx_pool_cleanup_file, c.data)]
    else firstFileMatch fd rest

/-- Well-formedness of one block of a pool whose blocks all have overall
size `sz`: the block occupies `[start, start + sz)`, its cursor sits between
the end of its header and the block end, its base address is aligned,
nonzero, and small enough that no 64-bit arithmetic in the allocator wraps. -/
def BInv (sz : Nat) (b : Block) : Prop :=
  b.end_ = b.start + sz ∧ b.start + b.hdr ≤ b.last ∧ b.last ≤ b.end_ ∧
  NGX_ALIGNMENT ∣ b.start ∧ 0 < b.start ∧ b.end_ ≤ 2 ^ 62

/-- How a block evolves under a successful small allocation: only its
cursor may move forward. -/
def blockLe (b b' : Block) : Prop :=
  b'.start = b.start ∧ b'.end_ = b.end_ ∧ b'.hdr = b.hdr ∧ b.last ≤ b'.last

/-- Invariant tying a pool, the ranges handed out so far (`rs`), and the
remaining schedule of candidate block addresses (`S`): the chain is well
formed, block regions are pairwise disjoint, every handed-out range sits
inside the used part of some block's data region, the handed-out ranges are
pairwise disjoint, and the scheduled addresses are fresh. -/
structure PoolInv (sz : Nat) (P : Pool) (rs : List (Nat × Nat)) (S : List Nat) : Prop where
  ne : P.blocks ≠ []
  cur : P.current < P.blocks.length
  maxle : P.max + sizeof_ngx_pool_t ≤ sz
  sz8 : NGX_ALIGNMENT ∣ sz
  binv : ∀ b ∈ P.blocks, BInv sz b
  bdisj : List.Pairwise (fun b1 b2 => rangesDisjoint (b1.start, sz) (b2.start, sz)) P.blocks
  rin : ∀ r ∈ rs, ∃ b ∈ P.blocks, b.start + b.hdr ≤ r.1 ∧ r.1 + r.2 ≤ b.last
  rdisj : List.Pairwise rangesDisjoint rs
  sfresh : ∀ m ∈ S, NGX_ALIGNMENT ∣ m ∧ 0 < m ∧ m + sz ≤ 2 ^ 62
             ∧ ∀ b ∈ P.blocks, rangesDisjoint (m, sz) (b.start, sz)
  sdisj : List.Pairwise (fun m1 m2 => rangesDisjoint (m1, sz) (m2, sz)) S


/-! ### Arithmetic helpers -/

lemma usub_of_le {a b : Nat} (h : b ≤ a) (h2 : a < U64) : usub a b = a - b := by
  unfold usub U64 at *
  omega

lemma le_ngx_align_ptr (m : Nat) : m ≤ ngx_align_ptr m NGX_ALIGNMENT := by
  unfold ngx_align_ptr NGX_ALIGNMENT
  omega

lemma ngx_align_ptr_le {m e : Nat} (h : m ≤ e) (hd : NGX_ALIGNMENT ∣ e) :
    ngx_align_ptr m NGX_ALIGNMENT ≤ e := by
  unfold NGX_ALIGNMENT at hd
  obtain ⟨k, rfl⟩ := hd
  unfold ngx_align_ptr NGX_ALIGNMENT
  omega

lemma dvd_ngx_align_ptr (m : Nat) : NGX_ALIGNMENT ∣ ngx_align_ptr m NGX_ALIGNMENT := by
  unfold ngx_align_ptr
  exact dvd_mul_left _ _

lemma ngx_align_ptr_eq_self {m : Nat} (h : NGX_ALIGNMENT ∣ m) :
    ngx_align_ptr m NGX_ALIGNMENT = m := by
  unfold NGX_ALIGNMENT at h
  obtain ⟨k, rfl⟩ := h
  unfold ngx_align_ptr NGX_ALIGNMENT
  omega

/-! ### C2: block release order at destroy -/

lemma blockEvs_eq_map (bs : List Block) :
    blockEvs bs = bs.map (fun b => Ev.freeBlock b.start) := by
  induction bs with
  | nil => rfl
  | cons b rest ih => simp [blockEvs, ih]

/-- C2 (amended): `ngx_destroy_pool` first runs the cleanup handlers, then
releases the large payloads, and then releases every block of the chain to
the underlying allocator in chain order BEGINNING with the root block: the
root block's storage is released first, not last (each block's successor
link is saved before the block is freed). -/
theorem destroy_releases_blocks_root_first (pool : Pool) :
    ngx_destroy_pool pool
      = cleanupEvs pool.cleanup ++ largeEvs pool.large ++ blockEvs pool.blocks
    ∧ blockEvs pool.blocks = pool.blocks.map (fun b => Ev.freeBlock b.start)
    ∧ (pool.blocks ≠ [] →
        (blockEvs pool.blocks).head? = some (.freeBlock (pool.blocks.headD default).start)) := by
  refine ⟨rfl, blockEvs_eq_map _, ?_⟩
  intro h
  cases hbs : pool.blocks with
  | nil => exact absurd hbs h
  | cons b rest => simp [blockEvs, hbs]

/-- Witness for `destroy_releases_blocks_root_first` at the concrete
two-block pool obtained by growing a 128-byte pool once. -/
theorem destroy_releases_blocks_root_first_witness :
    (blockEvs (runSmall ((ngx_create_pool 128 (some 16)).getD default)
        [⟨true, 48, none⟩, ⟨true, 8, some 1024⟩]).1.blocks).head?
      = some (.freeBlock ((runSmall ((ngx_create_pool 128 (some 16)).getD default)
        [⟨true, 48, none⟩, ⟨true, 8, some 1024⟩]).1.blocks.headD default).start) :=
  (destroy_releases_blocks_root_first _).2.2 (by decide)

/-- C2 counterexample: a pool with two blocks (root at 16, grown block at
1024), both reachable through the public operations.  `ngx_destroy_pool`
frees the root block first and the grown block last, so the claim that the
chain is released "ending with the root block" is false. -/
theorem destroy_root_last_counterexample :
    (ngx_destroy_pool (runSmall ((ngx_create_pool 128 (some 16)).getD default)
        [⟨true, 48, none⟩, ⟨true, 8, some 1024⟩]).1)
      = [.freeBlock 16, .freeBlock 1024]
    ∧ ((runSmall ((ngx_create_pool 128 (some 16)).getD default)
        [⟨true, 48, none⟩, ⟨true, 8, some 1024⟩]).1.blocks.headD default).start = 16
    ∧ (ngx_destroy_pool (runSmall ((ngx_create_pool 128 (some 16)).getD default)
        [⟨true, 48, none⟩, ⟨true, 8, some 1024⟩]).1).getLast?
      = some (.freeBlock 1024) := by
  refine ⟨by decide, by decide, by decide⟩

/-! ### C3: reset -/

/-- C3 (amended): after `ngx_reset_pool`, every block's `last` cursor is
rewound to `sizeof(ngx_pool_t)` bytes past the block's own start (for
non-root blocks this lies beyond their actual, smaller, header), every
`failed` counter is 0, `current` points to the root block again and the
`large` list head is absent; the `cleanup` list head is NOT cleared, it is
left exactly as it was. -/
theorem reset_pool_spec (pool : Pool) :
    List.Forall₂
      (fun b b' => b'.start = b.start ∧ b'.end_ = b.end_ ∧ b'.hdr = b.hdr ∧
        b'.last = b.start + sizeof_ngx_pool_t ∧ b'.failed = 0)
      pool.blocks (ngx_reset_pool pool).1.blocks
    ∧ (ngx_reset_pool pool).1.current = 0
    ∧ (ngx_reset_pool pool).1.large = []
    ∧ (ngx_reset_pool pool).1.cleanup = pool.cleanup
    ∧ (ngx_reset_pool pool).2
      = pool.large.filterMap (fun l => if l.alloc ≠ 0 then some l.alloc else none) := by
  refine ⟨?_, rfl, rfl, rfl, rfl⟩
  simp only [ngx_reset_pool]
  induction pool.blocks with
  | nil => exact List.Forall₂.nil
  | cons b rest ih => exact List.Forall₂.cons (by simp) ih

/-- C3 counterexample: create a pool, register one cleanup node, reset.
The cleanup list is still non-empty after the reset (the source clears
`chain` and `large` but not `cleanup`), so the claim that the cleanup list
head is absent after reset is false. -/
theorem reset_pool_cleanup_counterexample :
    ((ngx_reset_pool (ngx_pool_cleanup_add ((ngx_create_pool 4096 (some 16)).getD default)
        0 (none, none) (none, none)).pool).1).cleanup
      = [{ handler := none, data := .raw 0 }]
    ∧ ((ngx_reset_pool (ngx_pool_cleanup_add ((ngx_create_pool 4096 (some 16)).getD default)
        0 (none, none) (none, none)).pool).1).cleanup ≠ [] := by
  refine ⟨by decide, by decide⟩

/-! ### C9: pfree with a null pointer and a vacated slot -/

lemma pfreeLoop_zero_of_mem {ls : List LargeNode} (h : ∃ l ∈ ls, l.alloc = 0) :
    pfreeLoop 0 ls = some ls := by
  induction ls with
  | nil => simp at h
  | cons l rest ih =>
    simp only [pfreeLoop]
    by_cases h0 : (0 : Nat) = l.alloc
    · rw [if_pos h0]
      cases l with
      | mk a =>
        simp only [LargeNode.mk.injEq] at h0 ⊢
        simp [← h0]
    · rw [if_neg h0]
      have hrest : ∃ l' ∈ rest, l'.alloc = 0 := by
        obtain ⟨l', hl', ha⟩ := h
        rcases List.mem_cons.mp hl' with rfl | hmem
        · exact absurd ha.symm h0
        · exact ⟨l', hmem, ha⟩
      rw [ih hrest]
      rfl

/-- C9: if the large list contains a vacated node (`alloc == NULL`), then
`ngx_pfree(pool, NULL)` matches that node (`NULL == l->alloc`), passes the
null pointer to `ngx_free`, leaves the node's `alloc` absent (the list is
unchanged), and returns `NGX_OK` rather than `NGX_DECLINED`. -/
theorem pfree_null_matches_vacated_slot (pool : Pool)
    (h : ∃ l ∈ pool.large, l.alloc = 0) :
    ngx_pfree pool 0 = (pool, NGX_OK, [0]) := by
  simp [ngx_pfree, pfreeLoop_zero_of_mem h]

/-- Witness for `pfree_null_matches_vacated_slot`: a pool that made one
large allocation and freed it, leaving one vacated node. -/
theorem pfree_null_matches_vacated_slot_witness :
    ngx_pfree (ngx_pfree (ngx_palloc_large ((ngx_create_pool 4096 (some 16)).getD default)
        5000 (some 1000) none).pool 1000).1 0
      = ((ngx_pfree (ngx_palloc_large ((ngx_create_pool 4096 (some 16)).getD default)
        5000 (some 1000) none).pool 1000).1, NGX_OK, [0]) :=
  pfree_null_matches_vacated_slot _ (by decide)

/-! ### C10: run_cleanup_file ignores delete-file handlers -/

lemma rcfLoop_delete_file_nodes (fd : Nat) (cs : List CleanupNode) :
    (∀ i c, cs.get? i = some c → c.handler = some .ngx_pool_delete_file →
      (rcfLoop fd cs).1.get? i = some c)
    ∧ (∀ ev ∈ (rcfLoop fd cs).2, ev.1 = .ngx_pool_cleanup_file) := by
  induction cs with
  | nil => exact ⟨fun i c h => by simp at h, fun ev h => by simp [rcfLoop] at h⟩
  | cons c rest ih =>
    simp only [rcfLoop]
    by_cases hc : c.handler = some .ngx_pool_cleanup_file ∧ c.data.fdOf = some fd
    · rw [if_pos hc]
      refine ⟨?_, ?_⟩
      · intro i c' hget hdel
        cases i with
        | zero =>
          simp only [List.get?_cons_zero, Option.some_inj] at hget
          rw [← hget] at hdel
          rw [hc.1] at hdel
          simp at hdel
        | succ j => simpa using hget
      · intro ev hev
        simp at hev
        rw [hev]
    · rw [if_neg hc]
      refine ⟨?_, ?_⟩
      · intro i c' hget hdel
        cases i with
        | zero => simpa using hget
        | succ j =>
          simp only [List.get?_cons_succ] at hget ⊢
          exact ih.1 j c' hget hdel
      · exact ih.2

/-- C10: `ngx_pool_run_cleanup_file(p, fd)` matches only nodes whose handler
is exactly `ngx_pool_cleanup_file`; a node whose handler is
`ngx_pool_delete_file` — even one whose data carries the same `fd` — is left
completely unchanged (never cleared) and its handler is never invoked. -/
theorem run_cleanup_file_skips_delete_file (pool : Pool) (fd : Nat) :
    (∀ i c, pool.cleanup.get? i = some c → c.handler = some .ngx_pool_delete_file →
      (ngx_pool_run_cleanup_file pool fd).1.cleanup.get? i = some c)
    ∧ (∀ ev ∈ (ngx_pool_run_cleanup_file pool fd).2, ev.1 = .ngx_pool_cleanup_file) :=
  rcfLoop_delete_file_nodes fd pool.cleanup

/-- Witness for `run_cleanup_file_skips_delete_file`: a pool whose only
cleanup node carries the delete-file handler with the very fd being sought;
the node survives untouched and nothing is invoked. -/
theorem run_cleanup_file_skips_delete_file_witness :
    (ngx_pool_run_cleanup_file
        { blocks := [], current := 0, max := 0, large := [],
          cleanup := [{ handler := some .ngx_pool_delete_file,
                        data := .file { fd := 5, name := 0, log := 0 } }] } 5).1.cleanup.get? 0
      = some { handler := some .ngx_pool_delete_file,
               data := .file { fd := 5, name := 0, log := 0 } } :=
  (run_cleanup_file_skips_delete_file _ 5).1 0 _ (by decide) (by decide)

/-! ### C8: pfree -/

lemma pfreeLoop_eq_none_iff (p : Nat) (ls : List LargeNode) :
    pfreeLoop p ls = none ↔ ∀ l ∈ ls, l.alloc ≠ p := by
  induction ls with
  | nil => simp [pfreeLoop]
  | cons l rest ih =>
    simp only [pfreeLoop]
    by_cases h0 : p = l.alloc
    · rw [if_pos h0]
      refine iff_of_false (by simp) ?_
      intro h
      exact h l (by simp) h0.symm
    · rw [if_neg h0]
      constructor
      · intro h l' hl'
        rcases List.mem_cons.mp hl' with rfl | hm
        · exact fun he => h0 he.symm
        · rcases Option.map_eq_none'.mp h with hn
          exact (ih.mp hn) l' hm
      · intro h
        rw [Option.map_eq_none']
        exact ih.mpr (fun l' hm => h l' (List.mem_cons_of_mem _ hm))

lemma pfreeLoop_eq_some_spec (p : Nat) :
    ∀ (ls ls' : List LargeNode), pfreeLoop p ls = some ls' →
      ∃ i l, ls.get? i = some l ∧ l.alloc = p ∧ ls' = ls.set i { alloc := 0 }
        ∧ ∀ j, j < i → ∀ l', ls.get? j = some l' → l'.alloc ≠ p := by
  intro ls
  induction ls with
  | nil => intro ls' h; simp [pfreeLoop] at h
  | cons l rest ih =>
    intro ls' h
    simp only [pfreeLoop] at h
    by_cases h0 : p = l.alloc
    · rw [if_pos h0] at h
      refine ⟨0, l, by simp, h0.symm, ?_, by omega⟩
      simp only [Option.some_inj] at h
      rw [← h]
      simp
    · rw [if_neg h0] at h
      rcases Option.map_eq_some'.mp h with ⟨r, hr, hcons⟩
      obtain ⟨i, l0, hget, halloc, hset, hmin⟩ := ih r hr
      refine ⟨i + 1, l0, by simpa using hget, halloc, ?_, ?_⟩
      · rw [← hcons, hset]
        simp
      · intro j hj l' hget'
        cases j with
        | zero =>
          simp only [List.get?_cons_zero, Option.some_inj] at hget'
          rw [← hget']
          exact fun he => h0 he.symm
        | succ j' =>
          simp only [List.get?_cons_succ] at hget'
          exact hmin j' (by omega) l' hget'

lemma pfreeLoop_second (ptr : Nat) (hp : ptr ≠ 0) :
    ∀ ls : List LargeNode, ls.countP (fun l => decide (l.alloc = ptr)) ≤ 1 →
      pfreeLoop ptr (match pfreeLoop ptr ls with | some ls' => ls' | none => ls) = none := by
  intro ls
  induction ls with
  | nil => intro _; rfl
  | cons l rest ih =>
    intro hcount
    by_cases h0 : ptr = l.alloc
    · have hscan : pfreeLoop ptr (l :: rest) = some ({ alloc := 0 } :: rest) := by
        simp [pfreeLoop, if_pos h0]
      rw [hscan]
      have hrest0 : rest.countP (fun l => decide (l.alloc = ptr)) = 0 := by
        rw [List.countP_cons] at hcount
        have hht : (decide (l.alloc = ptr)) = true := by simp [← h0]
        rw [hht] at hcount
        simp only [if_true] at hcount
        omega
      have hnone : ∀ l' ∈ rest, l'.alloc ≠ ptr := by
        intro l' hm
        have := List.countP_eq_zero.mp hrest0 l' hm
        simpa using this
      simp only [pfreeLoop]
      rw [if_neg (by simpa using hp)]
      rw [Option.map_eq_none']
      exact (pfreeLoop_eq_none_iff ptr rest).mpr hnone
    · have hcount' : rest.countP (fun l => decide (l.alloc = ptr)) ≤ 1 := by
        rw [List.countP_cons] at hcount
        omega
      cases hrest : pfreeLoop ptr rest with
      | none =>
        have hscan : pfreeLoop ptr (l :: rest) = none := by
          simp [pfreeLoop, if_neg h0, hrest]
        rw [hscan, hscan]
      | some r =>
        have hscan : pfreeLoop ptr (l :: rest) = some (l :: r) := by
          simp [pfreeLoop, if_neg h0, hrest]
        rw [hscan]
        have := ih hcount'
        rw [hrest] at this
        simp only [pfreeLoop]
        rw [if_neg h0, Option.map_eq_none']
        exact this

/-- C8: `ngx_pfree(pool, ptr)` for a non-null `ptr` occurring at most once in
the large list: if some node holds `ptr`, the first such node has its payload
passed to `ngx_free` and its `alloc` cleared to `NULL` while the node itself
stays in the list, and the call returns `NGX_OK`; if no node holds `ptr` the
call returns `NGX_DECLINED` and changes nothing; and a second `ngx_pfree`
with the same pointer always returns `NGX_DECLINED`. -/
theorem pfree_spec (pool : Pool) (ptr : Nat) (hptr : ptr ≠ 0)
    (huniq : pool.large.countP (fun l => decide (l.alloc = ptr)) ≤ 1) :
    ((∃ l ∈ pool.large, l.alloc = ptr) →
      ∃ i l, pool.large.get? i = some l ∧ l.alloc = ptr
        ∧ (∀ j, j < i → ∀ l', pool.large.get? j = some l' → l'.alloc ≠ ptr)
        ∧ ngx_pfree pool ptr
            = ({ pool with large := pool.large.set i { alloc := 0 } }, NGX_OK, [ptr]))
    ∧ ((∀ l ∈ pool.large, l.alloc ≠ ptr) →
      ngx_pfree pool ptr = (pool, NGX_DECLINED, []))
    ∧ (ngx_pfree (ngx_pfree pool ptr).1 ptr).2.1 = NGX_DECLINED := by
  refine ⟨?_, ?_, ?_⟩
  · intro hex
    cases hscan : pfreeLoop ptr pool.large with
    | none =>
      obtain ⟨l, hm, ha⟩ := hex
      exact absurd ha ((pfreeLoop_eq_none_iff ptr pool.large).mp hscan l hm)
    | some ls' =>
      obtain ⟨i, l, hget, halloc, hset, hmin⟩ := pfreeLoop_eq_some_spec ptr pool.large ls' hscan
      refine ⟨i, l, hget, halloc, hmin, ?_⟩
      simp [ngx_pfree, hscan, hset]
  · intro hall
    have : pfreeLoop ptr pool.large = none := (pfreeLoop_eq_none_iff ptr pool.large).mpr hall
    simp [ngx_pfree, this]
  · have h2 := pfreeLoop_second ptr hptr pool.large huniq
    cases hscan : pfreeLoop ptr pool.large with
    | none =>
      rw [hscan] at h2
      simp [ngx_pfree, hscan, h2]
    | some ls' =>
      rw [hscan] at h2
      simp [ngx_pfree, hscan, h2]

/-- Witness for `pfree_spec`: after a large allocation at 1000 and its
release, a second `ngx_pfree(pool, 1000)` reports `NGX_DECLINED`. -/
theorem pfree_spec_witness :
    (ngx_pfree (ngx_pfree (ngx_palloc_large ((ngx_create_pool 4096 (some 16)).getD default)
        5000 (some 1000) none).pool 1000).1 1000).2.1 = NGX_DECLINED :=
  (pfree_spec (ngx_palloc_large ((ngx_create_pool 4096 (some 16)).getD default)
      5000 (some 1000) none).pool 1000 (by decide) (by decide)).2.2

/-! ### C7: failure atomicity -/

lemma ngx_palloc_small_fields (pool : Pool) (size : Nat) (align : Bool) (mem : Option Nat) :
    (ngx_palloc_small pool size align mem).pool.large = pool.large
    ∧ (ngx_palloc_small pool size align mem).pool.cleanup = pool.cleanup
    ∧ (ngx_palloc_small pool size align mem).pool.max = pool.max
    ∧ (ngx_palloc_small pool size align mem).freed = [] := by
  unfold ngx_palloc_small ngx_palloc_block
  cases smallLoop size align (pool.blocks.drop pool.current) <;> cases mem <;> simp

lemma ngx_palloc_cleanup_preserved (pool : Pool) (size : Nat) (pm bm : Option Nat) :
    (ngx_palloc pool size pm bm).pool.cleanup = pool.cleanup := by
  unfold ngx_palloc ngx_palloc_large
  by_cases h : size ≤ pool.max
  · rw [if_pos h]
    exact (ngx_palloc_small_fields pool size true bm).2.1
  · rw [if_neg h]
    cases pm with
    | none => rfl
    | some p =>
      simp only
      cases largeLoop p 0 pool.large with
      | some ls => rfl
      | none =>
        simp only
        cases hr : (ngx_palloc_small pool sizeof_ngx_pool_large_t true bm).res <;>
          simp [hr, (ngx_palloc_small_fields pool sizeof_ngx_pool_large_t true bm).2.1]

/-- C7: an underlying-allocator failure inside `ngx_palloc_large` or
`ngx_pool_cleanup_add` propagates as a `NULL` result and is never partially
applied: a failing `ngx_palloc_large` leaves `pool->large` unchanged and
passes the already-obtained payload (if any) back to `ngx_free`, and a
failing `ngx_pool_cleanup_add` never links any node into `pool->cleanup`. -/
theorem alloc_failure_atomicity :
    (∀ (pool : Pool) (size : Nat) (pm bm : Option Nat),
      (ngx_palloc_large pool size pm bm).res = none →
        (ngx_palloc_large pool size pm bm).pool.large = pool.large
        ∧ (ngx_palloc_large pool size pm bm).freed = pm.toList)
    ∧ (∀ (pool : Pool) (size : Nat) (ni di : Option Nat × Option Nat),
      (ngx_pool_cleanup_add pool size ni di).res = none →
        (ngx_pool_cleanup_add pool size ni di).pool.cleanup = pool.cleanup) := by
  constructor
  · intro pool size pm bm hres
    cases pm with
    | none => exact ⟨rfl, rfl⟩
    | some p =>
      simp only [ngx_palloc_large] at hres ⊢
      cases hscan : largeLoop p 0 pool.large with
      | some ls => simp [hscan] at hres
      | none =>
        cases hr : (ngx_palloc_small pool sizeof_ngx_pool_large_t true bm).res with
        | none =>
          refine ⟨?_, ?_⟩
          · simp [hr, (ngx_palloc_small_fields pool sizeof_ngx_pool_large_t true bm).1]
          · simp [hr, (ngx_palloc_small_fields pool sizeof_ngx_pool_large_t true bm).2.2.2]
        | some a => simp [hscan, hr] at hres
  · intro pool size ni di hres
    simp only [ngx_pool_cleanup_add] at hres ⊢
    cases hr1 : (ngx_palloc pool sizeof_ngx_pool_cleanup_t ni.1 ni.2).res with
    | none =>
      simp only [hr1]
      exact ngx_palloc_cleanup_preserved pool sizeof_ngx_pool_cleanup_t ni.1 ni.2
    | some caddr =>
      by_cases hsz : size ≠ 0
      · cases hr2 : (ngx_palloc (ngx_palloc pool sizeof_ngx_pool_cleanup_t ni.1 ni.2).pool
            size di.1 di.2).res with
        | none =>
          simp [hr1, hsz, hr2, ngx_palloc_cleanup_preserved]
        | some daddr => simp [hr1, hsz, hr2] at hres
      · simp [hr1, hsz] at hres

/-- Witness for `alloc_failure_atomicity`: an 88-byte pool (8 bytes of block
room).  A large allocation whose node cannot be placed frees its payload 777
and leaves the large list empty; a cleanup-add whose allocations fail leaves
the cleanup list empty. -/
theorem alloc_failure_atomicity_witness :
    ((ngx_palloc_large ((ngx_create_pool 88 (some 16)).getD default) 100
        (some 777) none).pool.large
      = ((ngx_create_pool 88 (some 16)).getD default).large
    ∧ (ngx_palloc_large ((ngx_create_pool 88 (some 16)).getD default) 100
        (some 777) none).freed = (some 777).toList)
    ∧ (ngx_pool_cleanup_add ((ngx_create_pool 88 (some 16)).getD default) 100
        (none, none) (none, none)).pool.cleanup
      = ((ngx_create_pool 88 (some 16)).getD default).cleanup :=
  ⟨alloc_failure_atomicity.1 ((ngx_create_pool 88 (some 16)).getD default) 100
      (some 777) none (by decide),
   alloc_failure_atomicity.2 ((ngx_create_pool 88 (some 16)).getD default) 100
      (none, none) (none, none) (by decide)⟩

/-! ### C4: large-allocation slot reuse scan depth -/

lemma largeLoop_eq_spec (p : Nat) :
    ∀ (ls : List LargeNode) (n : Nat), n ≤ 4 → largeLoop p n ls = largeLoopSpec p n ls := by
  intro ls
  induction ls with
  | nil => intro n _; rfl
  | cons l rest ih =>
    intro n hn
    by_cases h0 : l.alloc = 0
    · simp [largeLoop, largeLoopSpec, firstNullIdx, h0, hn]
    · simp only [largeLoop, if_neg h0]
      by_cases hn4 : 3 < n
      · rw [if_pos hn4]
        simp only [largeLoopSpec, firstNullIdx, if_neg h0]
        cases hfi : firstNullIdx rest with
        | none => rfl
        | some j =>
          simp only [Option.map_some']
          rw [if_neg (by omega)]
      · rw [if_neg hn4, ih (n + 1) (by omega)]
        simp only [largeLoopSpec, firstNullIdx, if_neg h0]
        cases hfi : firstNullIdx rest with
        | none => rfl
        | some j =>
          simp only [Option.map_some']
          by_cases hj : n + 1 + j ≤ 4
          · rw [if_pos hj, if_pos (by omega)]
            simp
          · rw [if_neg hj, if_neg (by omega)]
            simp

/-- C4 (amended): `ngx_palloc_large`, after obtaining the payload, inspects
at most the first FIVE nodes of `pool->large` (`if (n++ > 3) break` stops
only after the node reached with `n == 4` has been checked): if the first
vacated node (`alloc == NULL`) sits at an index `i ≤ 4`, the payload is
attached there and returned with no node added; if the first vacated node
sits beyond index 4 (or there is none), a fresh node is pushed at the head
instead — the slot is not reused. -/
theorem palloc_large_reuse_spec (pool : Pool) (size p : Nat) (bm : Option Nat) :
    (∀ i, firstNullIdx pool.large = some i → i ≤ 4 →
      ngx_palloc_large pool size (some p) bm
        = { pool := { pool with large := pool.large.set i { alloc := p } },
            res := some p, freed := [] })
    ∧ ((firstNullIdx pool.large = none ∨ ∃ i, firstNullIdx pool.large = some i ∧ 4 < i) →
      ∀ a, (ngx_palloc_small pool sizeof_ngx_pool_large_t true bm).res = some a →
        ngx_palloc_large pool size (some p) bm
          = { pool := { (ngx_palloc_small pool sizeof_ngx_pool_large_t true bm).pool with
                        large := { alloc := p }
                          :: (ngx_palloc_small pool sizeof_ngx_pool_large_t true bm).pool.large },
              res := some p, freed := [] }) := by
  constructor
  · intro i hfi hi
    have hscan : largeLoop p 0 pool.large = some (pool.large.set i { alloc := p }) := by
      rw [largeLoop_eq_spec p pool.large 0 (by omega)]
      simp only [largeLoopSpec, hfi]
      rw [if_pos (by omega)]
    simp [ngx_palloc_large, hscan]
  · intro hbeyond a ha
    have hscan : largeLoop p 0 pool.large = none := by
      rw [largeLoop_eq_spec p pool.large 0 (by omega)]
      rcases hbeyond with hnone | ⟨i, hfi, hi⟩
      · simp [largeLoopSpec, hnone]
      · simp only [largeLoopSpec, hfi]
        rw [if_neg (by omega)]
    have hfr := (ngx_palloc_small_fields pool sizeof_ngx_pool_large_t true bm).2.2.2
    simp [ngx_palloc_large, hscan, ha, hfr]

/-- Witness for `palloc_large_reuse_spec`: the pool with large list
`[5000, 4000, 3000, 2000, NULL]` (built by five large allocations and one
`ngx_pfree`); the vacated node at index 4 is reused. -/
theorem palloc_large_reuse_spec_witness :
    ngx_palloc_large (ngx_pfree (ngx_palloc_large (ngx_palloc_large (ngx_palloc_large
        (ngx_palloc_large (ngx_palloc_large ((ngx_create_pool 4096 (some 16)).getD default)
          5000 (some 1000) none).pool 5000 (some 2000) none).pool 5000 (some 3000) none).pool
          5000 (some 4000) none).pool 5000 (some 5000) none).pool 1000).1 5000 (some 6000) none
      = { pool := { (ngx_pfree (ngx_palloc_large (ngx_palloc_large (ngx_palloc_large
            (ngx_palloc_large (ngx_palloc_large ((ngx_create_pool 4096 (some 16)).getD default)
              5000 (some 1000) none).pool 5000 (some 2000) none).pool 5000 (some 3000) none).pool
              5000 (some 4000) none).pool 5000 (some 5000) none).pool 1000).1 with
            large := ((ngx_pfree (ngx_palloc_large (ngx_palloc_large (ngx_palloc_large
              (ngx_palloc_large (ngx_palloc_large ((ngx_create_pool 4096 (some 16)).getD default)
                5000 (some 1000) none).pool 5000 (some 2000) none).pool 5000 (some 3000) none).pool
                5000 (some 4000) none).pool 5000 (some 5000) none).pool 1000).1.large.set 4
                  { alloc := 6000 }) },
          res := some 6000, freed := [] } :=
  (palloc_large_reuse_spec _ 5000 6000 none).1 4 (by decide) (by decide)

/-- C4 counterexample: the same pool — five large nodes, the first four
occupied (5000, 4000, 3000, 2000) and only the FIFTH vacated.  The claim
says at most the first 4 nodes are inspected, so no vacated node should be
found and a new node should be linked; in fact the code inspects the fifth
node too, attaches the payload there, and the list does not grow. -/
theorem palloc_large_scan_counterexample :
    (let p6 := (ngx_pfree (ngx_palloc_large (ngx_palloc_large (ngx_palloc_large
        (ngx_palloc_large (ngx_palloc_large ((ngx_create_pool 4096 (some 16)).getD default)
          5000 (some 1000) none).pool 5000 (some 2000) none).pool 5000 (some 3000) none).pool
          5000 (some 4000) none).pool 5000 (some 5000) none).pool 1000).1
     p6.large.map LargeNode.alloc = [5000, 4000, 3000, 2000, 0]
       ∧ (p6.large.take 4).all (fun l => decide (l.alloc ≠ 0)) = true
       ∧ (ngx_palloc_large p6 64 (some 6000) none).pool.large.map LargeNode.alloc
           = [5000, 4000, 3000, 2000, 6000]
       ∧ (ngx_palloc_large p6 64 (some 6000) none).pool.large.length = p6.large.length
       ∧ (ngx_palloc_large p6 64 (some 6000) none).res = some 6000) := by
  refine ⟨by decide, by decide, by decide, by decide, by decide⟩

/-! ### C6: cleanup handlers at destroy -/

lemma cleanupEvs_eq_filterMap (ns : List CleanupNode) :
    cleanupEvs ns = ns.filterMap (fun n => n.handler.map (fun h => Ev.cleanup h n.data)) := by
  induction ns with
  | nil => rfl
  | cons c rest ih =>
    cases hh : c.handler with
    | none => simp [cleanupEvs, hh, ih]
    | some h => simp [cleanupEvs, hh, ih]

lemma cleanup_add_zero_cleanup (pool : Pool) (i : Option Nat × Option Nat) (c : Nat) :
    (ngx_pool_cleanup_add pool 0 i (none, none)).res = some c →
      (ngx_pool_cleanup_add pool 0 i (none, none)).pool.cleanup
        = { handler := none, data := .raw 0 } :: pool.cleanup := by
  intro hres
  simp only [ngx_pool_cleanup_add] at hres ⊢
  cases hr : (ngx_palloc pool sizeof_ngx_pool_cleanup_t i.1 i.2).res with
  | none => simp [hr] at hres
  | some caddr =>
    simp only [hr]
    simp [ngx_palloc_cleanup_preserved]

lemma addReg_cleanup (pool : Pool) (r : Reg) (p1 : Pool) :
    addReg pool r = some p1 → p1.cleanup = regNode r :: pool.cleanup := by
  intro h
  simp only [addReg] at h
  cases hres : (ngx_pool_cleanup_add pool 0 (none, r.mem) (none, none)).res with
  | none => rw [hres] at h; simp at h
  | some c =>
    rw [hres] at h
    simp only [Option.some_inj] at h
    have hcl := cleanup_add_zero_cleanup pool (none, r.mem) c hres
    rw [← h]
    simp [setCleanupHead, hcl, regNode]

lemma buildRegs_cleanup :
    ∀ (regs : List Reg) (pool0 pool : Pool), buildRegs pool0 regs = some pool →
      pool.cleanup = (regs.map regNode).reverse ++ pool0.cleanup := by
  intro regs
  induction regs with
  | nil =>
    intro pool0 pool h
    simp only [buildRegs, Option.some_inj] at h
    simp [← h]
  | cons r rest ih =>
    intro pool0 pool h
    simp only [buildRegs] at h
    cases ha : addReg pool0 r with
    | none => rw [ha] at h; simp at h
    | some p1 =>
      rw [ha] at h
      have h1 := addReg_cleanup pool0 r p1 ha
      rw [ih p1 pool h, h1]
      simp

lemma rcfLoop_eq_clear_match (fd : Nat) (cs : List CleanupNode) :
    rcfLoop fd cs = (clearFirstFile fd cs, firstFileMatch fd cs) := by
  induction cs with
  | nil => rfl
  | cons c rest ih =>
    simp only [rcfLoop, clearFirstFile, firstFileMatch]
    by_cases hc : c.handler = some .ngx_pool_cleanup_file ∧ c.data.fdOf = some fd
    · rw [if_pos hc, if_pos hc, if_pos hc]
    · rw [if_neg hc, if_neg hc, if_neg hc, ih]

/-- C6: build a pool by a sequence of cleanup registrations (each a
`ngx_pool_cleanup_add` plus the caller's handler/data writes) on a pool with
an empty cleanup list.  Then (1) `ngx_destroy_pool` invokes exactly the
handlers that are non-empty, one invocation per registration, in reverse
registration order (most recently added first), before any memory is
released; (2) `ngx_pool_run_cleanup_file(pool, fd)` invokes exactly the
first (most recently registered) matching close-file handler; and (3) a
destroy performed after that `runFileCleanup` call draws its invocations
from the chain with that one handler cleared to empty, so the handler
already run is not invoked again. -/
theorem cleanup_handlers_run_once (regs : List Reg) (pool0 pool : Pool) (fd : Nat)
    (h0 : pool0.cleanup = [])
    (hb : buildRegs pool0 regs = some pool) :
    ngx_destroy_pool pool
      = (regs.reverse).filterMap (fun r => r.h.map (fun h => Ev.cleanup h r.d))
        ++ largeEvs pool.large ++ blockEvs pool.blocks
    ∧ (ngx_pool_run_cleanup_file pool fd).2
      = firstFileMatch fd ((regs.map regNode).reverse)
    ∧ ngx_destroy_pool (ngx_pool_run_cleanup_file pool fd).1
      = cleanupEvs (clearFirstFile fd ((regs.map regNode).reverse))
        ++ largeEvs pool.large ++ blockEvs pool.blocks := by
  have hcl : pool.cleanup = (regs.map regNode).reverse := by
    rw [buildRegs_cleanup regs pool0 pool hb, h0, List.append_nil]
  refine ⟨?_, ?_, ?_⟩
  · show cleanupEvs pool.cleanup ++ largeEvs pool.large ++ blockEvs pool.blocks = _
    rw [hcl, cleanupEvs_eq_filterMap, ← List.map_reverse, List.filterMap_map]
    rfl
  · show (rcfLoop fd pool.cleanup).2 = _
    rw [rcfLoop_eq_clear_match, hcl]
  · simp only [ngx_destroy_pool, ngx_pool_run_cleanup_file]
    rw [rcfLoop_eq_clear_match, hcl]

/-- Witness for `cleanup_handlers_run_once`: three registrations (a user
handler, a close-file handler for fd 5, an unset handler), then the traces
of `runFileCleanup(pool, 5)` and of the subsequent destroy. -/
theorem cleanup_handlers_run_once_witness :
    ngx_destroy_pool ((buildRegs ((ngx_create_pool 4096 (some 16)).getD default)
        [⟨some (.user 7), .raw 0, none⟩,
         ⟨some .ngx_pool_cleanup_file, .file ⟨5, 0, 0⟩, none⟩,
         ⟨none, .raw 0, none⟩]).getD default)
      = (([⟨some (.user 7), .raw 0, none⟩,
           ⟨some .ngx_pool_cleanup_file, .file ⟨5, 0, 0⟩, none⟩,
           ⟨none, .raw 0, none⟩] : List Reg).reverse).filterMap
          (fun r => r.h.map (fun h => Ev.cleanup h r.d))
        ++ largeEvs ((buildRegs ((ngx_create_pool 4096 (some 16)).getD default)
            [⟨some (.user 7), .raw 0, none⟩,
             ⟨some .ngx_pool_cleanup_file, .file ⟨5, 0, 0⟩, none⟩,
             ⟨none, .raw 0, none⟩]).getD default).large
        ++ blockEvs ((buildRegs ((ngx_create_pool 4096 (some 16)).getD default)
            [⟨some (.user 7), .raw 0, none⟩,
             ⟨some .ngx_pool_cleanup_file, .file ⟨5, 0, 0⟩, none⟩,
             ⟨none, .raw 0, none⟩]).getD default).blocks :=
  (cleanup_handlers_run_once
    [⟨some (.user 7), .raw 0, none⟩,
     ⟨some .ngx_pool_cleanup_file, .file ⟨5, 0, 0⟩, none⟩,
     ⟨none, .raw 0, none⟩]
    ((ngx_create_pool 4096 (some 16)).getD default) _ 5 (by decide) (by decide)).1

/-! ### C5: block growth walk -/

lemma growLoop_length : ∀ (bs : List Block) (i c : Nat), (growLoop i bs c).1.length = bs.length := by
  intro bs
  induction bs with
  | nil => intro i c; rfl
  | cons b rest ih =>
    intro i c
    cases rest with
    | nil => rfl
    | cons b2 rest2 =>
      simp only [growLoop, List.length_cons]
      rw [ih]
      simp

lemma growLoop_get? :
    ∀ (bs : List Block) (i c j : Nat),
      (growLoop i bs c).1.get? j
        = (bs.get? j).map
            (fun b => if j + 1 < bs.length then { b with failed := b.failed + 1 } else b) := by
  intro bs
  induction bs with
  | nil => intro i c j; rfl
  | cons b rest ih =>
    intro i c j
    cases rest with
    | nil =>
      cases j with
      | zero => simp [growLoop]
      | succ j' => simp [growLoop]
    | cons b2 rest2 =>
      simp only [growLoop]
      cases j with
      | zero =>
        rw [List.get?_cons_zero, List.get?_cons_zero]
        simp only [Option.map_some']
        rw [if_pos (by simp only [List.length_cons]; omega)]
      | succ j' =>
        rw [List.get?_cons_succ, List.get?_cons_succ, ih]
        cases hg : (b2 :: rest2).get? j' with
        | none => rfl
        | some b' =>
          simp only [Option.map_some', Option.some_inj]
          exact if_congr (by simp only [List.length_cons]; omega) rfl rfl

lemma growLoop_cur_spec :
    ∀ (bs : List Block) (i c : Nat),
      ((∀ j, j + 1 < bs.length → ¬ 4 < (bs.getD j default).failed)
          ∧ (growLoop i bs c).2 = c)
      ∨ (∃ k, k + 1 < bs.length ∧ 4 < (bs.getD k default).failed
          ∧ (growLoop i bs c).2 = i + k + 1
          ∧ ∀ j, k < j → j + 1 < bs.length → ¬ 4 < (bs.getD j default).failed) := by
  intro bs
  induction bs with
  | nil =>
    intro i c
    left
    exact ⟨fun j hj => by simp at hj, rfl⟩
  | cons b rest ih =>
    intro i c
    cases rest with
    | nil =>
      left
      refine ⟨fun j hj => by simp only [List.length_cons, List.length_nil] at hj; omega, rfl⟩
    | cons b2 rest2 =>
      simp only [growLoop]
      rcases ih (i + 1) (if 4 < b.failed then i + 1 else c) with
        ⟨hall, hres⟩ | ⟨k, hk1, hk2, hres, hmax⟩
      · by_cases hb : 4 < b.failed
        · right
          refine ⟨0, by simp only [List.length_cons]; omega, by simpa using hb, ?_, ?_⟩
          · rw [hres, if_pos hb]
          · intro j hj hjlen
            cases j with
            | zero => omega
            | succ j' =>
              rw [List.getD_cons_succ]
              exact hall j' (by simp only [List.length_cons] at hjlen ⊢; omega)
        · left
          refine ⟨?_, by rw [hres, if_neg hb]⟩
          intro j hjlen
          cases j with
          | zero => simpa using hb
          | succ j' =>
            rw [List.getD_cons_succ]
            exact hall j' (by simp only [List.length_cons] at hjlen ⊢; omega)
      · right
        refine ⟨k + 1, by simp only [List.length_cons] at hk1 ⊢; omega,
          by rw [List.getD_cons_succ]; exact hk2, by rw [hres]; omega, ?_⟩
        intro j hj hjlen
        cases j with
        | zero => omega
        | succ j' =>
          rw [List.getD_cons_succ]
          exact hmax j' (by omega) (by simp only [List.length_cons] at hjlen ⊢; omega)

lemma list_getD_eq_get? (l : List α) (j : Nat) (d : α) : l.getD j d = (l.get? j).getD d := by
  induction l generalizing j with
  | nil => cases j <;> rfl
  | cons x xs ih =>
    cases j with
    | zero => rfl
    | succ j' => exact ih j'

/-- C5 (amended): when `ngx_palloc_block` runs (with the underlying
allocation succeeding at address `mb`), the chain gains exactly one block,
appended after the previous last block and initialized as in the source;
every previously existing block from `pool->current` onwards EXCEPT the
last block of the chain has its `failed` counter incremented (the loop
stops at the last block without touching its counter; blocks before
`current` are untouched); and `pool->current` is advanced to the successor
of the last visited block whose `failed` counter BEFORE the increment
exceeded 4, or left unchanged if there is no such block. -/
theorem palloc_block_spec (pool : Pool) (size mb : Nat)
    (hcur : pool.current < pool.blocks.length) :
    (ngx_palloc_block pool size (some mb)).pool.blocks.length = pool.blocks.length + 1
    ∧ (ngx_palloc_block pool size (some mb)).pool.blocks.getLast?
        = some { start := mb,
                 last := ngx_align_ptr (mb + sizeof_ngx_pool_data_t) NGX_ALIGNMENT + size,
                 end_ := mb + usub (pool.blocks.headD default).end_
                   (pool.blocks.headD default).start,
                 failed := 0, hdr := sizeof_ngx_pool_data_t }
    ∧ (ngx_palloc_block pool size (some mb)).res
        = some (ngx_align_ptr (mb + sizeof_ngx_pool_data_t) NGX_ALIGNMENT)
    ∧ (∀ j b, pool.blocks.get? j = some b →
        (ngx_palloc_block pool size (some mb)).pool.blocks.get? j
          = some (if pool.current ≤ j ∧ j + 1 < pool.blocks.length then
                    { b with failed := b.failed + 1 }
                  else b))
    ∧ (((∀ j, pool.current ≤ j → j + 1 < pool.blocks.length →
            ¬ 4 < (pool.blocks.getD j default).failed)
          ∧ (ngx_palloc_block pool size (some mb)).pool.current = pool.current)
        ∨ (∃ k, pool.current ≤ k ∧ k + 1 < pool.blocks.length
            ∧ 4 < (pool.blocks.getD k default).failed
            ∧ (ngx_palloc_block pool size (some mb)).pool.current = k + 1
            ∧ ∀ j, k < j → j + 1 < pool.blocks.length →
                ¬ 4 < (pool.blocks.getD j default).failed)) := by
  have htake : (pool.blocks.take pool.current).length = pool.current := by
    rw [List.length_take]
    omega
  have hdrop : (pool.blocks.drop pool.current).length
      = pool.blocks.length - pool.current := List.length_drop _ _
  refine ⟨?_, ?_, rfl, ?_, ?_⟩
  · simp only [ngx_palloc_block, List.length_append, htake, growLoop_length, hdrop,
      List.length_cons, List.length_nil]
    omega
  · simp only [ngx_palloc_block]
    exact List.getLast?_concat _
  · intro j b hget
    have hj : j < pool.blocks.length := List.get?_eq_some.mp hget |>.1
    simp only [ngx_palloc_block]
    by_cases hjc : j < pool.current
    · rw [List.get?_append (by rw [List.length_append, htake, growLoop_length, hdrop]; omega),
        List.get?_append (by rw [htake]; omega),
        List.get?_take (by omega), hget]
      rw [if_neg (by omega)]
    · rw [List.get?_append (by rw [List.length_append, htake, growLoop_length, hdrop]; omega),
        List.get?_append_right (by rw [htake]; omega),
        htake, growLoop_get?, List.get?_drop]
      have : pool.current + (j - pool.current) = j := by omega
      rw [this, hget, Option.map_some', hdrop]
      exact congrArg some (if_congr (by omega) rfl rfl)
  · have hspec := growLoop_cur_spec (pool.blocks.drop pool.current) pool.current pool.current
    have hcurval : (ngx_palloc_block pool size (some mb)).pool.current
        = (growLoop pool.current (pool.blocks.drop pool.current) pool.current).2 := rfl
    have hgd : ∀ j, (pool.blocks.drop pool.current).getD j default
        = pool.blocks.getD (pool.current + j) default := by
      intro j
      rw [list_getD_eq_get?, list_getD_eq_get?, List.get?_drop]
    rcases hspec with ⟨hall, hres⟩ | ⟨k, hk1, hk2, hres, hmax⟩
    · left
      refine ⟨?_, by rw [hcurval, hres]⟩
      intro j hj1 hj2
      have := hall (j - pool.current) (by rw [hdrop]; omega)
      rw [hgd] at this
      have hco : pool.current + (j - pool.current) = j := by omega
      rwa [hco] at this
    · right
      refine ⟨pool.current + k, by omega, by rw [hdrop] at hk1; omega, ?_, ?_, ?_⟩
      · have := hk2
        rwa [hgd] at this
      · rw [hcurval, hres]
      · intro j hj1 hj2
        have := hmax (j - pool.current) (by omega) (by rw [hdrop]; omega)
        rw [hgd] at this
        have hco : pool.current + (j - pool.current) = j := by omega
        rwa [hco] at this

/-- Witness for `palloc_block_spec`: a two-block pool whose first block
already failed 6 times.  Growth appends a third block, increments only the
first block's counter (6 is above the threshold, so `current` moves to 1),
and leaves the old last block's counter untouched. -/
theorem palloc_block_spec_witness :
    (ngx_palloc_block
        { blocks := [{ start := 16, last := 96, end_ := 144, failed := 6, hdr := 80 },
                     { start := 1024, last := 1056, end_ := 1152, failed := 0, hdr := 32 }],
          current := 0, max := 48, large := [], cleanup := [] } 8 (some 2048)).pool.blocks.length
      = 3
    ∧ (ngx_palloc_block
        { blocks := [{ start := 16, last := 96, end_ := 144, failed := 6, hdr := 80 },
                     { start := 1024, last := 1056, end_ := 1152, failed := 0, hdr := 32 }],
          current := 0, max := 48, large := [], cleanup := [] } 8 (some 2048)).pool.blocks.get? 0
      = some { start := 16, last := 96, end_ := 144, failed := 7, hdr := 80 } := by
  constructor
  · have := (palloc_block_spec
      { blocks := [{ start := 16, last := 96, end_ := 144, failed := 6, hdr := 80 },
                   { start := 1024, last := 1056, end_ := 1152, failed := 0, hdr := 32 }],
        current := 0, max := 48, large := [], cleanup := [] } 8 2048 (by decide)).1
    simpa using this
  · have := (palloc_block_spec
      { blocks := [{ start := 16, last := 96, end_ := 144, failed := 6, hdr := 80 },
                   { start := 1024, last := 1056, end_ := 1152, failed := 0, hdr := 32 }],
        current := 0, max := 48, large := [], cleanup := [] } 8 2048 (by decide)).2.2.2.1 0
      { start := 16, last := 96, end_ := 144, failed := 6, hdr := 80 } (by decide)
    simpa using this

/-- C5 counterexample: a freshly created single-block pool.  Its only block
is both `pool->current` and the last block of the chain, so it lies on the
walk from `current` to the last block; yet `ngx_palloc_block` leaves its
`failed` counter at 0 (the loop `for (p = pool->current; p->d.next; ...)`
never runs its body for the last block), contradicting the claim that every
block visited on that walk has its counter incremented. -/
theorem palloc_block_counterexample :
    ((ngx_create_pool 128 (some 16)).getD default).current = 0
    ∧ ((ngx_create_pool 128 (some 16)).getD default).blocks.length = 1
    ∧ (ngx_palloc_block ((ngx_create_pool 128 (some 16)).getD default) 8
        (some 1024)).pool.blocks.get? 0
      = some { start := 16, last := 96, end_ := 144, failed := 0, hdr := 80 }
    ∧ (ngx_palloc_block ((ngx_create_pool 128 (some 16)).getD default) 8
        (some 1024)).pool.current = 0 := by
  refine ⟨by decide, by decide, by decide, by decide⟩

/-! ### C1: helper lemmas -/

lemma rangesDisjoint_symm {r1 r2 : Nat × Nat} (h : rangesDisjoint r1 r2) :
    rangesDisjoint r2 r1 := h.symm

lemma rangesDisjoint_symmetric :
    Symmetric (fun r1 r2 : Nat × Nat => rangesDisjoint r1 r2) :=
  fun _ _ h => rangesDisjoint_symm h

lemma forall₂_mem_left {R : α → β → Prop} :
    ∀ {l1 : List α} {l2 : List β}, List.Forall₂ R l1 l2 → ∀ a ∈ l1, ∃ b ∈ l2, R a b := by
  intro l1 l2 h
  induction h with
  | nil => intro a ha; simp at ha
  | cons hr _ ih =>
    intro a ha
    rcases List.mem_cons.mp ha with rfl | hm
    · exact ⟨_, by simp, hr⟩
    · obtain ⟨b, hb, hRb⟩ := ih a hm
      exact ⟨b, List.mem_cons_of_mem _ hb, hRb⟩

lemma forall₂_map_start {l1 l2 : List Block} (h : List.Forall₂ blockLe l1 l2) :
    l2.map Block.start = l1.map Block.start := by
  induction h with
  | nil => rfl
  | cons hr _ ih => simp [ih, hr.1]

lemma growLoop_map_start :
    ∀ (bs : List Block) (i c : Nat), (growLoop i bs c).1.map Block.start = bs.map Block.start := by
  intro bs
  induction bs with
  | nil => intro i c; rfl
  | cons b rest ih =>
    intro i c
    cases rest with
    | nil => rfl
    | cons b2 rest2 =>
      simp only [growLoop, List.map_cons]
      rw [ih]
      simp

lemma growLoop_mem {bs : List Block} {i c : Nat} :
    ∀ b' ∈ (growLoop i bs c).1, ∃ b ∈ bs,
      b'.start = b.start ∧ b'.last = b.last ∧ b'.end_ = b.end_ ∧ b'.hdr = b.hdr := by
  intro b' hb'
  obtain ⟨j, hj⟩ := List.mem_iff_get?.mp hb'
  rw [growLoop_get?] at hj
  rcases Option.map_eq_some'.mp hj with ⟨b, hb, hbe⟩
  refine ⟨b, List.mem_iff_get?.mpr ⟨j, hb⟩, ?_⟩
  by_cases hc : j + 1 < bs.length
  · rw [if_pos hc] at hbe
    rw [← hbe]
    exact ⟨rfl, rfl, rfl, rfl⟩
  · rw [if_neg hc] at hbe
    rw [← hbe]
    exact ⟨rfl, rfl, rfl, rfl⟩

lemma growLoop_mem_rev {bs : List Block} {i c : Nat} :
    ∀ b ∈ bs, ∃ b' ∈ (growLoop i bs c).1,
      b'.start = b.start ∧ b'.last = b.last ∧ b'.end_ = b.end_ ∧ b'.hdr = b.hdr := by
  intro b hb
  obtain ⟨j, hj⟩ := List.mem_iff_get?.mp hb
  have hg := growLoop_get? bs i c j
  rw [hj, Option.map_some'] at hg
  refine ⟨_, List.mem_iff_get?.mpr ⟨j, hg⟩, ?_⟩
  by_cases hc : j + 1 < bs.length
  · rw [if_pos hc]
    exact ⟨rfl, rfl, rfl, rfl⟩
  · rw [if_neg hc]
    exact ⟨rfl, rfl, rfl, rfl⟩

lemma forall₂_blockLe_refl (l : List Block) : List.Forall₂ blockLe l l := by
  induction l with
  | nil => exact List.Forall₂.nil
  | cons b rest ih => exact List.Forall₂.cons ⟨rfl, rfl, rfl, le_refl _⟩ ih

lemma smallLoop_sound (sz size : Nat) (align : Bool) (hsz8 : NGX_ALIGNMENT ∣ sz) :
    ∀ (bs bs' : List Block) (m : Nat),
      (∀ b ∈ bs, BInv sz b) →
      smallLoop size align bs = some (bs', m) →
      List.Forall₂ blockLe bs bs'
      ∧ (∀ b' ∈ bs', BInv sz b')
      ∧ (∃ b b', b ∈ bs ∧ b' ∈ bs' ∧ b.start = b'.start ∧ b.hdr = b'.hdr
          ∧ b.last ≤ m ∧ b'.last = m + size ∧ b.start + b.hdr ≤ m ∧ m + size ≤ b.end_
          ∧ b.end_ = b'.end_)
      ∧ (align = true → NGX_ALIGNMENT ∣ m) := by
  intro bs
  induction bs with
  | nil => intro bs' m _ h; simp [smallLoop] at h
  | cons b rest ih =>
    intro bs' m hB h
    have hBb : BInv sz b := hB b (by simp)
    have hend8 : NGX_ALIGNMENT ∣ b.end_ := by
      rw [hBb.1]
      exact Dvd.dvd.add (hBb.2.2.2.1) hsz8
    have hendlt : b.end_ < U64 := by
      have := hBb.2.2.2.2.2
      unfold U64
      omega
    simp only [smallLoop] at h
    by_cases hfit : size ≤ usub b.end_ (if align then ngx_align_ptr b.last NGX_ALIGNMENT else b.last)
    · rw [if_pos hfit] at h
      simp only [Option.some_inj, Prod.mk.injEq] at h
      obtain ⟨hbs', hm⟩ := h
      rw [hm] at hbs' hfit
      have hlastm : b.last ≤ m := by
        rw [← hm]
        cases align with
        | false => simp
        | true => simpa using le_ngx_align_ptr b.last
      have hmend : m ≤ b.end_ := by
        rw [← hm]
        cases align with
        | false => simpa using hBb.2.2.1
        | true => simpa using ngx_align_ptr_le hBb.2.2.1 hend8
      have husub : usub b.end_ m = b.end_ - m := usub_of_le hmend hendlt
      have hfit' : m + size ≤ b.end_ := by
        rw [husub] at hfit
        omega
      have hBnew : BInv sz { b with last := m + size } := by
        refine ⟨hBb.1, ?_, ?_, hBb.2.2.2.1, hBb.2.2.2.2.1, hBb.2.2.2.2.2⟩
        · simp only
          calc b.start + b.hdr ≤ b.last := hBb.2.1
            _ ≤ m := hlastm
            _ ≤ m + size := Nat.le_add_right _ _
        · simpa using hfit'
      refine ⟨?_, ?_, ?_, ?_⟩
      · rw [← hbs']
        exact List.Forall₂.cons ⟨rfl, rfl, rfl, by simp only; omega⟩ (forall₂_blockLe_refl rest)
      · intro b' hb'
        rw [← hbs'] at hb'
        rcases List.mem_cons.mp hb' with rfl | hmem
        · exact hBnew
        · exact hB b' (List.mem_cons_of_mem _ hmem)
      · refine ⟨b, { b with last := m + size }, by simp, by rw [← hbs']; simp, rfl, rfl,
          hlastm, rfl, ?_, hfit', rfl⟩
        calc b.start + b.hdr ≤ b.last := hBb.2.1
          _ ≤ m := hlastm
      · intro ha
        rw [← hm, ha]
        simpa using dvd_ngx_align_ptr b.last
    · rw [if_neg hfit] at h
      rcases Option.map_eq_some'.mp h with ⟨⟨rs', m'⟩, hrec, heq⟩
      simp only [Prod.mk.injEq] at heq
      obtain ⟨hbs', hm⟩ := heq
      obtain ⟨hf2, hBall, ⟨b0, b0', hb0, hb0', hrest⟩, halign⟩ :=
        ih rs' m' (fun x hx => hB x (List.mem_cons_of_mem _ hx)) hrec
      subst hm
      refine ⟨?_, ?_, ?_, halign⟩
      · rw [← hbs']
        exact List.Forall₂.cons ⟨rfl, rfl, rfl, le_refl _⟩ hf2
      · intro b' hb'
        rw [← hbs'] at hb'
        rcases List.mem_cons.mp hb' with rfl | hmem
        · exact hBb
        · exact hBall b' hmem
      · exact ⟨b0, b0', List.mem_cons_of_mem _ hb0, by rw [← hbs']; exact List.mem_cons_of_mem _ hb0', hrest⟩

lemma forall₂_mem_right {R : α → β → Prop} :
    ∀ {l1 : List α} {l2 : List β}, List.Forall₂ R l1 l2 → ∀ b ∈ l2, ∃ a ∈ l1, R a b := by
  intro l1 l2 h
  induction h with
  | nil => intro b hb; simp at hb
  | cons hr _ ih =>
    intro b hb
    rcases List.mem_cons.mp hb with rfl | hm
    · exact ⟨_, by simp, hr⟩
    · obtain ⟨a, ha, hRa⟩ := ih b hm
      exact ⟨a, List.mem_cons_of_mem _ ha, hRa⟩

lemma binv_transport {sz : Nat} {x x' : Block}
    (h1 : x'.start = x.start) (h2 : x'.last = x.last) (h3 : x'.end_ = x.end_)
    (h4 : x'.hdr = x.hdr) (hx : BInv sz x) : BInv sz x' := by
  unfold BInv at *
  rw [h1, h2, h3, h4]
  exact hx

lemma headD_mem {l : List Block} (h : l ≠ []) : l.headD default ∈ l := by
  cases l with
  | nil => exact absurd rfl h
  | cons x xs => simp

lemma two_pow_62_lt_U64 : (2 : Nat) ^ 62 < U64 := by
  unfold U64
  norm_num

lemma palloc_small_step (sz size : Nat) (align : Bool) (bm : Option Nat)
    (P : Pool) (rs : List (Nat × Nat)) (S : List Nat)
    (hI : PoolInv sz P rs (bm.toList ++ S)) (hsize : size ≤ P.max) :
    ((ngx_palloc_small P size align bm).res = none →
      (ngx_palloc_small P size align bm).pool = P ∧ PoolInv sz P rs S)
    ∧ (∀ m, (ngx_palloc_small P size align bm).res = some m →
      PoolInv sz (ngx_palloc_small P size align bm).pool (rs ++ [(m, size)]) S
      ∧ NGX_ALIGNMENT ∣ m ∨
      PoolInv sz (ngx_palloc_small P size align bm).pool (rs ++ [(m, size)]) S
      ∧ align = false)
    ∧ (ngx_palloc_small P size align bm).pool.max = P.max := by
  have hdropB : ∀ b ∈ P.blocks.drop P.current, BInv sz b :=
    fun b hb => hI.binv b (List.drop_subset _ _ hb)
  have hsfreshS : ∀ m ∈ S, NGX_ALIGNMENT ∣ m ∧ 0 < m ∧ m + sz ≤ 2 ^ 62
      ∧ ∀ b ∈ P.blocks, rangesDisjoint (m, sz) (b.start, sz) :=
    fun m hm => hI.sfresh m (List.mem_append_right _ hm)
  have hsdisjS : List.Pairwise (fun m1 m2 => rangesDisjoint (m1, sz) (m2, sz)) S :=
    hI.sdisj.sublist (List.sublist_append_right _ _)
  have hsymmB : Symmetric (fun b1 b2 : Block => rangesDisjoint (b1.start, sz) (b2.start, sz)) :=
    fun _ _ h => rangesDisjoint_symm h
  have hlenpos : 0 < P.blocks.length := List.length_pos.mpr hI.ne
  cases hloop : smallLoop size align (P.blocks.drop P.current) with
  | some pr =>
    obtain ⟨bs', m0⟩ := pr
    obtain ⟨hf2, hBall, ⟨b, b', hbmem, hb'mem, hstart, hhdr, hblast, hb'last, hdata, hmend,
      hend⟩, halign⟩ := smallLoop_sound sz size align hI.sz8 _ _ _ hdropB hloop
    have hbmemP : b ∈ P.blocks := List.drop_subset _ _ hbmem
    have hres : ngx_palloc_small P size align bm
        = ⟨{ P with blocks := P.blocks.take P.current ++ bs' }, some m0, []⟩ := by
      simp [ngx_palloc_small, hloop]
    have hlenbs : bs'.length = (P.blocks.drop P.current).length := hf2.length_eq.symm
    have hlen : (P.blocks.take P.current ++ bs').length = P.blocks.length := by
      rw [List.length_append, List.length_take, hlenbs, List.length_drop]
      omega
    have hBall' : ∀ x ∈ P.blocks.take P.current ++ bs', BInv sz x := by
      intro x hx
      rcases List.mem_append.mp hx with hx | hx
      · exact hI.binv x (List.take_subset _ _ hx)
      · exact hBall x hx
    have hmapstart : (P.blocks.take P.current ++ bs').map Block.start
        = P.blocks.map Block.start := by
      rw [List.map_append, forall₂_map_start hf2, ← List.map_append, List.take_append_drop]
    have hpairB' : List.Pairwise (fun b1 b2 => rangesDisjoint (b1.start, sz) (b2.start, sz))
        (P.blocks.take P.current ++ bs') := by
      have h1 := (List.pairwise_map (R := fun s1 s2 => rangesDisjoint (s1, sz) (s2, sz)) (f := Block.start)).mpr hI.bdisj
      rw [← hmapstart] at h1
      exact (List.pairwise_map (R := fun s1 s2 => rangesDisjoint (s1, sz) (s2, sz)) (f := Block.start)).mp h1
    have hmemB' : ∀ x ∈ P.blocks, ∃ x' ∈ P.blocks.take P.current ++ bs',
        x'.start = x.start ∧ x'.hdr = x.hdr ∧ x.last ≤ x'.last := by
      intro x hx
      rw [← List.take_append_drop P.current P.blocks] at hx
      rcases List.mem_append.mp hx with hx | hx
      · exact ⟨x, List.mem_append_left _ hx, rfl, rfl, le_refl _⟩
      · obtain ⟨x', hx', hR⟩ := forall₂_mem_left hf2 x hx
        exact ⟨x', List.mem_append_right _ hx', hR.1, hR.2.2.1, hR.2.2.2⟩
    have hmemB'src : ∀ x' ∈ P.blocks.take P.current ++ bs',
        ∃ x ∈ P.blocks, x.start = x'.start := by
      intro x' hx'
      rcases List.mem_append.mp hx' with hx' | hx'
      · exact ⟨x', List.take_subset _ _ hx', rfl⟩
      · obtain ⟨x, hx, hR⟩ := forall₂_mem_right hf2 x' hx'
        exact ⟨x, List.drop_subset _ _ hx, hR.1.symm⟩
    have hInew : PoolInv sz { P with blocks := P.blocks.take P.current ++ bs' }
        (rs ++ [(m0, size)]) S := by
      refine ⟨?_, ?_, hI.maxle, hI.sz8, hBall', hpairB', ?_, ?_, ?_, hsdisjS⟩
      · exact List.ne_nil_of_length_pos (by rw [hlen]; exact hlenpos)
      · show P.current < (P.blocks.take P.current ++ bs').length
        rw [hlen]
        exact hI.cur
      · intro r hr
        rcases List.mem_append.mp hr with hr | hr
        · obtain ⟨b0, hb0, hr1, hr2⟩ := hI.rin r hr
          obtain ⟨x', hx', hs, hh, hl⟩ := hmemB' b0 hb0
          exact ⟨x', hx', by rw [hs, hh]; exact hr1, le_trans hr2 hl⟩
        · rw [List.mem_singleton.mp hr]
          refine ⟨b', List.mem_append_right _ hb'mem, ?_, ?_⟩
          · rw [← hstart, ← hhdr]
            exact le_trans hdata (le_refl _)
          · rw [hb'last]
      · rw [List.pairwise_append]
        refine ⟨hI.rdisj, List.pairwise_singleton _ _, ?_⟩
        intro r hr x hx
        rw [List.mem_singleton.mp hx]
        obtain ⟨b0, hb0, hr1, hr2⟩ := hI.rin r hr
        have hb0B := hI.binv b0 hb0
        have hbB := hI.binv b hbmemP
        by_cases heq : b0 = b
        · subst heq
          unfold rangesDisjoint
          left
          exact le_trans hr2 hblast
        · have hD := hI.bdisj.forall hsymmB hb0 hbmemP heq
          unfold rangesDisjoint at hD ⊢
          simp only at hD ⊢
          have h1 : r.1 + r.2 ≤ b0.last := hr2
          have h2 : b0.last ≤ b0.end_ := hb0B.2.2.1
          have h3 : b0.end_ = b0.start + sz := hb0B.1
          have h4 : b.start + b.hdr ≤ m0 := hdata
          have h5 : m0 + size ≤ b.end_ := hmend
          have h6 : b.end_ = b.start + sz := hbB.1
          have h7 : b0.start + b0.hdr ≤ r.1 := hr1
          omega
      · intro m hm
        obtain ⟨hm8, hm0, hmb, hmd⟩ := hsfreshS m hm
        refine ⟨hm8, hm0, hmb, ?_⟩
        intro x' hx'
        obtain ⟨x, hx, hs⟩ := hmemB'src x' hx'
        rw [← hs]
        exact hmd x hx
    refine ⟨?_, ?_, by rw [hres]⟩
    · intro h
      rw [hres] at h
      simp at h
    · intro m hm
      rw [hres] at hm
      simp only [Option.some_inj] at hm
      subst hm
      cases align with
      | true => exact Or.inl ⟨by rw [hres]; exact hInew, halign rfl⟩
      | false => exact Or.inr ⟨by rw [hres]; exact hInew, rfl⟩
  | none =>
    cases bm with
    | none =>
      have hres : ngx_palloc_small P size align none = ⟨P, none, []⟩ := by
        simp [ngx_palloc_small, hloop, ngx_palloc_block]
      refine ⟨?_, ?_, by rw [hres]⟩
      · intro _
        exact ⟨by rw [hres], hI⟩
      · intro m hm
        rw [hres] at hm
        simp at hm
    | some mb =>
      obtain ⟨hmb8, hmb0, hmbbound, hmbdisj⟩ := hI.sfresh mb (by simp)
      have hrootmem : P.blocks.headD default ∈ P.blocks := headD_mem hI.ne
      have hrootB := hI.binv _ hrootmem
      have hpsize : usub (P.blocks.headD default).end_ (P.blocks.headD default).start = sz := by
        rw [hrootB.1, usub_of_le (Nat.le_add_right _ _)
          (by have := hrootB.2.2.2.2.2; rw [hrootB.1] at this
              have := two_pow_62_lt_U64; omega)]
        omega
      have hdst : ngx_align_ptr (mb + sizeof_ngx_pool_data_t) NGX_ALIGNMENT
          = mb + sizeof_ngx_pool_data_t := by
        apply ngx_align_ptr_eq_self
        exact Dvd.dvd.add hmb8 (by norm_num [sizeof_ngx_pool_data_t, NGX_ALIGNMENT])
      have hszge : size + sizeof_ngx_pool_t ≤ sz := by
        have := hI.maxle
        omega
      have hres : ngx_palloc_small P size align (some mb)
          = ⟨{ P with
                blocks := P.blocks.take P.current
                  ++ (growLoop P.current (P.blocks.drop P.current) P.current).1
                  ++ [{ start := mb,
                        last := ngx_align_ptr (mb + sizeof_ngx_pool_data_t) NGX_ALIGNMENT + size,
                        end_ := mb + usub (P.blocks.headD default).end_
                          (P.blocks.headD default).start,
                        failed := 0, hdr := sizeof_ngx_pool_data_t }],
                current := (growLoop P.current (P.blocks.drop P.current) P.current).2 },
             some (ngx_align_ptr (mb + sizeof_ngx_pool_data_t) NGX_ALIGNMENT), []⟩ := by
        simp [ngx_palloc_small, hloop, ngx_palloc_block]
      have hBnew : BInv sz { start := mb,
                             last := ngx_align_ptr (mb + sizeof_ngx_pool_data_t)
                               NGX_ALIGNMENT + size,
                             end_ := mb + usub (P.blocks.headD default).end_
                               (P.blocks.headD default).start,
                             failed := 0, hdr := sizeof_ngx_pool_data_t } := by
        rw [hpsize, hdst]
        refine ⟨rfl, ?_, ?_, hmb8, hmb0, hmbbound⟩
        · simp only
          omega
        · simp only
          unfold sizeof_ngx_pool_data_t
          unfold sizeof_ngx_pool_t at hszge
          omega
      have hw1mem : ∀ b' ∈ (growLoop P.current (P.blocks.drop P.current) P.current).1,
          ∃ x ∈ P.blocks, b'.start = x.start ∧ b'.last = x.last ∧ b'.end_ = x.end_
            ∧ b'.hdr = x.hdr := by
        intro b' hb'
        obtain ⟨x, hx, hfields⟩ := growLoop_mem b' hb'
        exact ⟨x, List.drop_subset _ _ hx, hfields⟩
      set newb : Block := { start := mb,
                            last := ngx_align_ptr (mb + sizeof_ngx_pool_data_t)
                              NGX_ALIGNMENT + size,
                            end_ := mb + usub (P.blocks.headD default).end_
                              (P.blocks.headD default).start,
                            failed := 0, hdr := sizeof_ngx_pool_data_t } with hnewb
      set B' : List Block := P.blocks.take P.current
          ++ (growLoop P.current (P.blocks.drop P.current) P.current).1 ++ [newb] with hB'
      have hlenB' : B'.length = P.blocks.length + 1 := by
        rw [hB', List.length_append, List.length_append, List.length_take, growLoop_length,
          List.length_drop, List.length_cons, List.length_nil]
        omega
      have hmapB' : B'.map Block.start = P.blocks.map Block.start ++ [mb] := by
        rw [hB', List.map_append, List.map_append, growLoop_map_start, ← List.map_append,
          List.take_append_drop]
        rfl
      have hBallB' : ∀ x ∈ B', BInv sz x := by
        intro x hx
        rw [hB'] at hx
        rcases List.mem_append.mp hx with hx | hx
        · rcases List.mem_append.mp hx with hx | hx
          · exact hI.binv x (List.take_subset _ _ hx)
          · obtain ⟨y, hy, h1, h2, h3, h4⟩ := hw1mem x hx
            exact binv_transport h1 h2 h3 h4 (hI.binv y hy)
        · rw [List.mem_singleton.mp hx]
          exact hBnew
      have hmemB' : ∀ x ∈ P.blocks, ∃ x' ∈ B',
          x'.start = x.start ∧ x'.hdr = x.hdr ∧ x'.last = x.last := by
        intro x hx
        rw [← List.take_append_drop P.current P.blocks] at hx
        rcases List.mem_append.mp hx with hx | hx
        · exact ⟨x, by rw [hB']; exact List.mem_append_left _ (List.mem_append_left _ hx),
            rfl, rfl, rfl⟩
        · obtain ⟨x', hx', h1, h2, h3, h4⟩ := growLoop_mem_rev x hx
          exact ⟨x', by rw [hB']; exact List.mem_append_left _ (List.mem_append_right _ hx'),
            h1, h4, h2⟩
      have hmemB'src : ∀ x' ∈ B', x'.start = mb ∨ ∃ x ∈ P.blocks, x.start = x'.start := by
        intro x' hx'
        rw [hB'] at hx'
        rcases List.mem_append.mp hx' with hx' | hx'
        · rcases List.mem_append.mp hx' with hx' | hx'
          · exact Or.inr ⟨x', List.take_subset _ _ hx', rfl⟩
          · obtain ⟨y, hy, h1, _, _, _⟩ := hw1mem x' hx'
            exact Or.inr ⟨y, hy, h1.symm⟩
        · rw [List.mem_singleton.mp hx']
          exact Or.inl rfl
      have hInew : PoolInv sz
          { P with
            blocks := B'
            current := (growLoop P.current (P.blocks.drop P.current) P.current).2 }
          (rs ++ [(ngx_align_ptr (mb + sizeof_ngx_pool_data_t) NGX_ALIGNMENT, size)]) S := by
        refine ⟨?_, ?_, hI.maxle, hI.sz8, hBallB', ?_, ?_, ?_, ?_, hsdisjS⟩
        · exact List.ne_nil_of_length_pos (by rw [hlenB']; omega)
        · show (growLoop P.current (P.blocks.drop P.current) P.current).2 < B'.length
          rw [hlenB']
          rcases growLoop_cur_spec (P.blocks.drop P.current) P.current P.current with
            ⟨_, hc⟩ | ⟨k, hk1, _, hc, _⟩
          · rw [hc]
            have := hI.cur
            omega
          · rw [hc]
            rw [List.length_drop] at hk1
            omega
        · have h1 := (List.pairwise_map (R := fun s1 s2 => rangesDisjoint (s1, sz) (s2, sz)) (f := Block.start)).mpr hI.bdisj
          have h2 : List.Pairwise (fun s1 s2 => rangesDisjoint (s1, sz) (s2, sz))
              (P.blocks.map Block.start ++ [mb]) := by
            rw [List.pairwise_append]
            refine ⟨h1, List.pairwise_singleton _ _, ?_⟩
            intro s hs x hx
            rw [List.mem_singleton.mp hx]
            obtain ⟨y, hy, rfl⟩ := List.mem_map.mp hs
            exact rangesDisjoint_symm (hmbdisj y hy)
          rw [← hmapB'] at h2
          exact (List.pairwise_map (R := fun s1 s2 => rangesDisjoint (s1, sz) (s2, sz)) (f := Block.start)).mp h2
        · intro r hr
          rcases List.mem_append.mp hr with hr | hr
          · obtain ⟨b0, hb0, hr1, hr2⟩ := hI.rin r hr
            obtain ⟨x', hx', hs, hh, hl⟩ := hmemB' b0 hb0
            exact ⟨x', hx', by rw [hs, hh]; exact hr1, by rw [hl]; exact hr2⟩
          · rw [List.mem_singleton.mp hr]
            refine ⟨newb, by rw [hB']; exact List.mem_append_right _ (by simp), ?_, ?_⟩
            · rw [hnewb]
              simp only
              rw [hdst]
            · rw [hnewb]
        · rw [List.pairwise_append]
          refine ⟨hI.rdisj, List.pairwise_singleton _ _, ?_⟩
          intro r hr x hx
          rw [List.mem_singleton.mp hx]
          obtain ⟨b0, hb0, hr1, hr2⟩ := hI.rin r hr
          have hb0B := hI.binv b0 hb0
          have hD := hmbdisj b0 hb0
          unfold rangesDisjoint at hD ⊢
          simp only at hD ⊢
          have h1 : r.1 + r.2 ≤ b0.last := hr2
          have h2 : b0.last ≤ b0.end_ := hb0B.2.2.1
          have h3 : b0.end_ = b0.start + sz := hb0B.1
          have h4 : b0.start + b0.hdr ≤ r.1 := hr1
          have h5 : ngx_align_ptr (mb + sizeof_ngx_pool_data_t) NGX_ALIGNMENT
              = mb + sizeof_ngx_pool_data_t := hdst
          unfold sizeof_ngx_pool_data_t at h5 hszge ⊢
          unfold sizeof_ngx_pool_t at hszge
          rw [h5]
          omega
        · intro m hm
          obtain ⟨hm8, hm0, hmbnd, hmd⟩ := hsfreshS m hm
          refine ⟨hm8, hm0, hmbnd, ?_⟩
          intro x' hx'
          rcases hmemB'src x' hx' with hx0 | ⟨x, hx, hs⟩
          · rw [hx0]
            have hpair := List.pairwise_cons.mp hI.sdisj
            exact rangesDisjoint_symm (hpair.1 m hm)
          · rw [← hs]
            exact hmd x hx
      refine ⟨?_, ?_, by rw [hres]⟩
      · intro h
        rw [hres] at h
        simp at h
      · intro m hm
        rw [hres] at hm
        simp only [Option.some_inj] at hm
        subst hm
        left
        constructor
        · rw [hres]
          exact hInew
        · exact dvd_ngx_align_ptr _

lemma run_op_eq (P : Pool) (op : SmallOp) (h : op.size ≤ P.max) :
    (if op.align then ngx_palloc P op.size none op.mem
     else ngx_pnalloc P op.size none op.mem)
      = ngx_palloc_small P op.size op.align op.mem := by
  cases ha : op.align with
  | true => simp [ngx_palloc, h]
  | false => simp [ngx_pnalloc, h]

lemma runSmall_sound (sz : Nat) :
    ∀ (ops : List SmallOp) (P : Pool) (rs : List (Nat × Nat)),
      PoolInv sz P rs (ops.filterMap SmallOp.mem) →
      (∀ op ∈ ops, op.size ≤ P.max) →
      PoolInv sz (runSmall P ops).1 (rs ++ (runSmall P ops).2.filterMap (fun x => x.2)) []
      ∧ (∀ x ∈ (runSmall P ops).2, x.1.align = true →
          ∀ r, x.2 = some r → NGX_ALIGNMENT ∣ r.1)
      ∧ (runSmall P ops).1.max = P.max := by
  intro ops
  induction ops with
  | nil =>
    intro P rs hI hops
    refine ⟨?_, ?_, rfl⟩
    · simpa [runSmall] using hI
    · intro x hx
      simp [runSmall] at hx
  | cons op ops ih =>
    intro P rs hI hops
    have hsize : op.size ≤ P.max := hops op (by simp)
    have hfm : (op :: ops).filterMap SmallOp.mem
        = op.mem.toList ++ ops.filterMap SmallOp.mem := by
      cases hm : op.mem <;> simp [List.filterMap_cons, hm]
    rw [hfm] at hI
    have hstep := palloc_small_step sz op.size op.align op.mem P rs
      (ops.filterMap SmallOp.mem) hI hsize
    have hrun : runSmall P (op :: ops)
        = ((runSmall (ngx_palloc_small P op.size op.align op.mem).pool ops).1,
           (op, (ngx_palloc_small P op.size op.align op.mem).res.map (fun a => (a, op.size)))
             :: (runSmall (ngx_palloc_small P op.size op.align op.mem).pool ops).2) := by
      rw [runSmall, run_op_eq P op hsize]
    cases hres : (ngx_palloc_small P op.size op.align op.mem).res with
    | none =>
      obtain ⟨hpool, hI'⟩ := hstep.1 hres
      have hih := ih P rs hI' (fun o ho => hops o (List.mem_cons_of_mem _ ho))
      rw [hrun, hres, hpool]
      refine ⟨?_, ?_, hih.2.2⟩
      · simpa using hih.1
      · intro x hx
        simp only [List.mem_cons] at hx
        rcases hx with rfl | hx
        · intro _ r hr
          simp at hr
        · exact hih.2.1 x hx
    | some m =>
      have hposs := hstep.2.1 m hres
      have hInew : PoolInv sz (ngx_palloc_small P op.size op.align op.mem).pool
          (rs ++ [(m, op.size)]) (ops.filterMap SmallOp.mem) := by
        rcases hposs with ⟨h, _⟩ | ⟨h, _⟩ <;> exact h
      have hmax := hstep.2.2
      have hih := ih (ngx_palloc_small P op.size op.align op.mem).pool (rs ++ [(m, op.size)])
        hInew (fun o ho => by rw [hmax]; exact hops o (List.mem_cons_of_mem _ ho))
      rw [hrun, hres]
      refine ⟨?_, ?_, by rw [hih.2.2, hmax]⟩
      · have h1 := hih.1
        rw [List.append_assoc] at h1
        simpa using h1
      · intro x hx
        simp only [List.mem_cons] at hx
        rcases hx with rfl | hx
        · intro hal r hr
          simp only [Option.map_some', Option.some_inj] at hr
          rw [← hr]
          rcases hposs with ⟨_, hdvd⟩ | ⟨_, hfalse⟩
          · exact hdvd
          · rw [hfalse] at hal
            simp at hal
        · exact hih.2.1 x hx

lemma pairwiseB_eq_true_iff (R : α → α → Bool) (l : List α) :
    pairwiseB R l = true ↔ List.Pairwise (fun a b => R a b = true) l := by
  induction l with
  | nil => simp [pairwiseB]
  | cons x xs ih =>
    simp only [pairwiseB, Bool.and_eq_true, List.all_eq_true, List.pairwise_cons, ih]

lemma pairwise_opt_of_filterMap (l : List (SmallOp × Option (Nat × Nat)))
    (h : List.Pairwise rangesDisjoint (l.filterMap (fun x => x.2))) :
    List.Pairwise (fun o1 o2 => optDisjointB o1 o2 = true) (l.map (fun x => x.2)) := by
  induction l with
  | nil => constructor
  | cons x xs ih =>
    cases hx2 : x.2 with
    | none =>
      rw [List.filterMap_cons_none hx2] at h
      simp only [List.map_cons, hx2]
      exact List.Pairwise.cons (fun o2 _ => by simp [optDisjointB]) (ih h)
    | some r =>
      rw [List.filterMap_cons_some hx2] at h
      have hh := List.pairwise_cons.mp h
      simp only [List.map_cons, hx2]
      refine List.Pairwise.cons ?_ (ih hh.2)
      intro o2 ho2
      obtain ⟨y, hy, hy2⟩ := List.mem_map.mp ho2
      cases hyv : y.2 with
      | none => simp [optDisjointB, ← hy2, hyv]
      | some r2 =>
        have hr2mem : r2 ∈ xs.filterMap (fun x => x.2) :=
          List.mem_filterMap.mpr ⟨y, hy, by rw [hyv]⟩
        have hd := hh.1 r2 hr2mem
        rw [← hy2, hyv]
        simp only [optDisjointB]
        exact decide_eq_true hd

/-- C1 (amended): starting from a pool created with a size that is a
multiple of the platform alignment (and at least one pool header large),
run any sequence of `ngx_palloc` / `ngx_pnalloc` calls with sizes below the
pool threshold, where the underlying allocator hands out fresh, aligned,
pairwise-disjoint block regions.  Then the returned ranges are pairwise
disjoint, each lies within the data region of some block of the final
chain, and every address returned by the aligned variant is aligned to
`NGX_ALIGNMENT`.  (Without the size-alignment condition on the pool this
fails: see the counterexample.) -/
theorem small_alloc_ranges_ok (csize a : Nat) (ops : List SmallOp) (pool0 : Pool)
    (hc : ngx_create_pool csize (some a) = some pool0)
    (hsz8 : NGX_ALIGNMENT ∣ csize)
    (hszlo : sizeof_ngx_pool_t ≤ csize)
    (hbound : a + csize ≤ 2 ^ 62)
    (ha16 : NGX_POOL_ALIGNMENT ∣ a)
    (ha0 : 0 < a)
    (hops : ∀ op ∈ ops, op.size ≤ pool0.max)
    (hfresh : freshSchedule a csize (ops.filterMap SmallOp.mem)) :
    resultsOk (runSmall pool0 ops).1.blocks (runSmall pool0 ops).2 = true := by
  have ha8 : NGX_ALIGNMENT ∣ a :=
    dvd_trans (by norm_num [NGX_ALIGNMENT, NGX_POOL_ALIGNMENT]) ha16
  have hp0 : pool0 = { blocks := [{ start := a, last := a + sizeof_ngx_pool_t,
                                    end_ := a + csize, failed := 0,
                                    hdr := sizeof_ngx_pool_t }],
                       current := 0,
                       max := if usub csize sizeof_ngx_pool_t < NGX_MAX_ALLOC_FROM_POOL
                              then usub csize sizeof_ngx_pool_t
                              else NGX_MAX_ALLOC_FROM_POOL,
                       large := [], cleanup := [] } := by
    simp only [ngx_create_pool, Option.some_inj] at hc
    exact hc.symm
  have hcsU : csize < U64 := by
    have := two_pow_62_lt_U64
    omega
  have husub : usub csize sizeof_ngx_pool_t = csize - sizeof_ngx_pool_t :=
    usub_of_le hszlo hcsU
  obtain ⟨hf1, hf2⟩ := hfresh
  have hInit : PoolInv csize pool0 [] (ops.filterMap SmallOp.mem) := by
    rw [hp0]
    refine ⟨by simp, by simp, ?_, hsz8, ?_, ?_, by simp, by simp, ?_, ?_⟩
    · simp only
      rw [husub]
      unfold NGX_MAX_ALLOC_FROM_POOL sizeof_ngx_pool_t
      unfold sizeof_ngx_pool_t at hszlo
      split <;> omega
    · intro b hb
      simp only [List.mem_singleton] at hb
      rw [hb]
      refine ⟨rfl, ?_, ?_, ha8, ha0, hbound⟩
      · simp only
        exact le_refl _
      · simp only
        unfold sizeof_ngx_pool_t at hszlo ⊢
        omega
    · exact List.pairwise_singleton _ _
    · intro m hm
      obtain ⟨h8, h0, hb⟩ := hf1 m hm
      refine ⟨h8, h0, hb, ?_⟩
      intro b hbmem
      simp only [List.mem_singleton] at hbmem
      rw [hbmem]
      have hhead := (List.pairwise_cons.mp hf2).1 (m, csize)
        (List.mem_map.mpr ⟨m, hm, rfl⟩)
      exact rangesDisjoint_symm hhead
    · have htail := (List.pairwise_cons.mp hf2).2
      exact (List.pairwise_map (R := fun r1 r2 => rangesDisjoint r1 r2)
        (f := fun m => (m, csize))).mp htail
  obtain ⟨hFin, hAlign, _⟩ := runSmall_sound csize ops pool0 [] hInit hops
  simp only [List.nil_append] at hFin
  unfold resultsOk
  rw [Bool.and_eq_true]
  constructor
  · exact (pairwiseB_eq_true_iff _ _).mpr (pairwise_opt_of_filterMap _ hFin.rdisj)
  · rw [List.all_eq_true]
    intro x hx
    cases hx2 : x.2 with
    | none => simp [hx2]
    | some r =>
      simp only [hx2]
      rw [Bool.and_eq_true]
      constructor
      · obtain ⟨b, hb, h1, h2⟩ := hFin.rin r (List.mem_filterMap.mpr ⟨x, hx, hx2⟩)
        unfold withinDataB
        rw [List.any_eq_true]
        refine ⟨b, hb, decide_eq_true ⟨h1, le_trans h2 (hFin.binv b hb).2.2.1⟩⟩
      · cases hal : x.1.align with
        | false => simp
        | true =>
          have hdvd := hAlign x hx hal r hx2
          obtain ⟨k, hk⟩ := hdvd
          simp [hk, Nat.mul_mod_right]

/-- Witness for `small_alloc_ranges_ok`: a 128-byte pool at 16, one aligned,
one unaligned and one chain-growing aligned request, with the fresh block at
1024. -/
theorem small_alloc_ranges_ok_witness :
    resultsOk (runSmall ((ngx_create_pool 128 (some 16)).getD default)
        [⟨true, 8, none⟩, ⟨false, 24, none⟩, ⟨true, 48, some 1024⟩]).1.blocks
      (runSmall ((ngx_create_pool 128 (some 16)).getD default)
        [⟨true, 8, none⟩, ⟨false, 24, none⟩, ⟨true, 48, some 1024⟩]).2 = true :=
  small_alloc_ranges_ok 128 16 [⟨true, 8, none⟩, ⟨false, 24, none⟩, ⟨true, 48, some 1024⟩]
    ((ngx_create_pool 128 (some 16)).getD default)
    (by decide) (by decide) (by decide) (by decide) (by decide) (by decide)
    (by decide) (by decide)

/-- C1 counterexample: a pool created with size 100 (not a multiple of the
platform alignment, as nothing in the interface forbids).  Two small
requests, both within `pool->max = 20`: an unaligned 17-byte one and then an
aligned 1-byte one.  Aligning the cursor 113 up to 120 overshoots the block
end 116, and the check `(size_t) (p->d.end - m) >= size` wraps around and
passes, so the second call returns the range [120, 121) — outside the data
region of every block of the chain.  The claim that every returned range
lies within the data region of some block is therefore false as stated. -/
theorem small_alloc_ranges_counterexample :
    (∀ op ∈ ([⟨false, 17, none⟩, ⟨true, 1, none⟩] : List SmallOp),
      op.size ≤ ((ngx_create_pool 100 (some 16)).getD default).max)
    ∧ (runSmall ((ngx_create_pool 100 (some 16)).getD default)
        [⟨false, 17, none⟩, ⟨true, 1, none⟩]).2.map (fun x => x.2)
      = [some (96, 17), some (120, 1)]
    ∧ withinDataB (runSmall ((ngx_create_pool 100 (some 16)).getD default)
        [⟨false, 17, none⟩, ⟨true, 1, none⟩]).1.blocks (120, 1) = false
    ∧ resultsOk (runSmall ((ngx_create_pool 100 (some 16)).getD default)
        [⟨false, 17, none⟩, ⟨true, 1, none⟩]).1.blocks
      (runSmall ((ngx_create_pool 100 (some 16)).getD default)
        [⟨false, 17, none⟩, ⟨true, 1, none⟩]).2 = false := by
  refine ⟨by decide, by decide, by decide, by decide⟩
